import Mathlib

/-!
# Verification of the `webcrawlersentiment` crawl controller

Shallow embedding of `src/crawler.py` (class `WebCrawler`) and of the parts of
CPython's `urllib.parse` that it calls (`urlparse`, `urlunparse`, `urljoin`),
together with the seed validation performed by `src/app.py`.

Python strings are modelled as `List Char`.  Machinery that the crawler uses
but whose behaviour the claims do not touch is modelled as follows:
* `requests` / `trafilatura` / `BeautifulSoup` (the network fetch and HTML
  extraction inside `WebCrawler.fetch_page`) are an oracle
  `fetch : Str → Option PageData`: `none` is any failure path of `fetch_page`
  (HTTP error, non-HTML content-type, empty extracted content), `some` is its
  returned dict.  `fetch_page` always returns `'url': url` (the argument), so
  the record url is the dequeued url.
* `time.sleep` and logging are effect-free and are omitted.
* CPython's `urlsplit` is modelled after its pure parsing core: the
  `\t\r\n` pre-stripping and the host-validation checks of newer CPython
  (`_check_bracketed_host`, `_checknetloc`) are omitted; the
  `Invalid IPv6 URL` `ValueError` for unbalanced brackets (present in every
  Python 3 version) is kept, as `Except.error`.
* The crawl `while` loop is driven by a fuel parameter; every claim about run
  invariants is stated for all fuel values, i.e. at every step of every run.
-/

namespace Crawler

abbrev Str := List Char

/-- Python `str.lower()` (ASCII case folding, which is all the crawler needs). -/
def lowerStr (s : Str) : Str := s.map Char.toLower

/-- CPython `urllib.parse.scheme_chars`: characters allowed in a URL scheme. -/
def schemeChar (c : Char) : Bool :=
  c.isAlpha || c.isDigit || c = '+' || c = '-' || c = '.'

/-- Python `s.split(c, 1)` when `c` occurs, `(s, '')` otherwise: the part
    before the first occurrence of `c` and the part after it. -/
def splitOnce (c : Char) (l : Str) : Str × Str :=
  ((l.span (· ≠ c)).1, (l.span (· ≠ c)).2.tail)

/-- Result of CPython `urlsplit`. -/
structure SplitResult where
  scheme : Str
  netloc : Str
  path : Str
  query : Str
  fragment : Str
deriving Repr, DecidableEq

/-- The scheme-detection step of CPython `urlsplit` (3.11):
    `i = url.find(':')`; a scheme is split off when `i > 0`, `url[0]` is an
    ASCII letter and every character of `url[:i]` is in `scheme_chars`. -/
def schemeDetect (url : Str) : Bool :=
  let sp := url.span (· ≠ ':')
  !sp.2.isEmpty && !sp.1.isEmpty && (sp.1.headD '0').isAlpha && sp.1.all schemeChar

/-- The pure splitting work of CPython `urlsplit` (scheme detection, netloc
    after `//` up to the first `/?#`, fragment after the first `#`, query
    after the first `?`); `dscheme` is the `scheme` default argument. -/
def urlsplitCore (dscheme : Str) (url : Str) : SplitResult :=
  let sp := url.span (· ≠ ':')
  let scheme := if schemeDetect url then lowerStr sp.1 else dscheme
  let rest := if schemeDetect url then sp.2.tail else url
  let nsp := (rest.drop 2).span (fun c => !(c = '/' || c = '?' || c = '#'))
  let netloc := if rest.take 2 = ['/', '/'] then nsp.1 else []
  let rest2 := if rest.take 2 = ['/', '/'] then nsp.2 else rest
  let fsp := splitOnce '#' rest2
  let qsp := splitOnce '?' fsp.1
  ⟨scheme, netloc, qsp.1, qsp.2, fsp.2⟩

/-- CPython `urllib.parse.urlsplit` (with `allow_fragments=True`): the
    splitting of `urlsplitCore` plus the `Invalid IPv6 URL` `ValueError` on a
    netloc with unbalanced brackets.  (CPython performs the bracket check
    between the netloc and fragment stages; since all stages are pure and the
    check reads only the netloc, raising after the remaining splits is
    observationally identical.) -/
def urlsplitE (dscheme : Str) (url : Str) : Except Str SplitResult :=
  let r := urlsplitCore dscheme url
  if ('[' ∈ r.netloc ∧ ']' ∉ r.netloc) ∨ (']' ∈ r.netloc ∧ '[' ∉ r.netloc) then
    .error "Invalid IPv6 URL".toList
  else .ok r

/-- Result of CPython `urlparse`. -/
structure ParseResult where
  scheme : Str
  netloc : Str
  path : Str
  params : Str
  query : Str
  fragment : Str
deriving Repr, DecidableEq

/-- CPython `urllib.parse._splitparams`: split `;params` off the last path
    segment (only ever called when `';' in url`). -/
def splitparams (url : Str) : Str × Str :=
  if '/' ∈ url then
    let lastSeg := (url.reverse.takeWhile (· ≠ '/')).reverse
    if ';' ∈ lastSeg then
      let p := lastSeg.span (· ≠ ';')
      (url.take (url.length - lastSeg.length) ++ p.1, p.2.tail)
    else (url, [])
  else
    let p := url.span (· ≠ ';')
    (p.1, p.2.tail)

/-- CPython `urllib.parse.uses_params` (3.11). -/
def uses_params : List Str :=
  ["", "ftp", "hdl", "prospero", "http", "imap", "https", "shttp", "rtsp",
   "rtsps", "rtspu", "sip", "sips", "mms", "sftp", "tel"].map String.toList

/-- CPython `urllib.parse.urlparse` (3.11): split `;params` off the path only
    when the scheme uses parameters. -/
def urlparseE (dscheme url : Str) : Except Str ParseResult := do
  let s ← urlsplitE dscheme url
  let pp :=
    if s.scheme ∈ uses_params ∧ ';' ∈ s.path then splitparams s.path
    else (s.path, [])
  pure ⟨s.scheme, s.netloc, pp.1, pp.2, s.query, s.fragment⟩

/-- CPython `urllib.parse.uses_netloc` (3.11). -/
def uses_netloc : List Str :=
  ["", "ftp", "http", "gopher", "nntp", "telnet", "imap", "wais", "file",
   "mms", "https", "shttp", "snews", "prospero", "rtsp", "rtsps", "rtspu",
   "rsync", "svn", "svn+ssh", "sftp", "nfs", "git", "git+ssh", "ws",
   "wss"].map String.toList

/-- CPython `urllib.parse.urlunsplit` (3.11): the `//` marker is emitted when
    there is a netloc, or when the scheme uses a netloc and the path does not
    already begin with `//`. -/
def urlunsplit (scheme netloc path query fragment : Str) : Str :=
  let url := path
  let url :=
    if netloc ≠ [] ∨ (scheme ≠ [] ∧ scheme ∈ uses_netloc ∧ url.take 2 ≠ ['/', '/']) then
      let url := if url ≠ [] ∧ url.take 1 ≠ ['/'] then '/' :: url else url
      '/' :: '/' :: (netloc ++ url)
    else url
  let url := if scheme ≠ [] then scheme ++ ':' :: url else url
  let url := if query ≠ [] then url ++ '?' :: query else url
  if fragment ≠ [] then url ++ '#' :: fragment else url

/-- CPython `urllib.parse.urlunparse`. -/
def urlunparse (scheme netloc path params query fragment : Str) : Str :=
  urlunsplit scheme netloc (if params ≠ [] then path ++ ';' :: params else path)
    query fragment

/-- `WebCrawler.normalize_url` (crawler.py lines 90-115): re-assemble the
    parsed URL without its fragment, then remove one trailing `'/'` from the
    resulting string when `len(parsed.path) > 1`.  The `ValueError` that
    `urlparse` can raise propagates (there is no try/except here). -/
def normalize_url (url : Str) : Except Str Str := do
  let parsed ← urlparseE [] url
  let normalized :=
    urlunparse parsed.scheme parsed.netloc parsed.path parsed.params parsed.query []
  if normalized.getLast? = some '/' ∧ parsed.path.length > 1 then
    pure normalized.dropLast
  else
    pure normalized

/-- The fixed exclusion set of `WebCrawler.is_valid_url` (crawler.py 69-74). -/
def excludedExtensions : List Str :=
  [".pdf", ".doc", ".docx", ".xls", ".xlsx", ".ppt", ".pptx",
   ".zip", ".rar", ".tar", ".gz", ".mp3", ".mp4", ".avi",
   ".jpg", ".jpeg", ".png", ".gif", ".svg", ".ico",
   ".css", ".js", ".xml", ".json"].map String.toList

/-- `WebCrawler.is_valid_url` (crawler.py lines 46-88).  The surrounding
    try/except turns any parse error into `False`. -/
def is_valid_url (allow_external : Bool) (url base_domain : Str) : Bool :=
  match urlparseE [] url with
  | .error _ => false
  | .ok parsed =>
    if ¬ (parsed.scheme = "http".toList ∨ parsed.scheme = "https".toList) then false
    else if ¬ allow_external ∧ parsed.netloc ≠ base_domain then false
    else if excludedExtensions.any (fun ext => ext.isSuffixOf (lowerStr parsed.path)) then
      false
    else if parsed.fragment ≠ [] then false
    else true

/-- CPython `urllib.parse.uses_relative` (3.11). -/
def uses_relative : List Str :=
  ["", "ftp", "http", "gopher", "nntp", "imap", "wais", "file", "https",
   "shttp", "mms", "prospero", "rtsp", "rtsps", "rtspu", "sftp", "svn",
   "svn+ssh", "ws", "wss"].map String.toList

/-- Python `str.split(sep)` for a one-character separator. -/
def pySplit (sep : Char) : Str → List Str
  | [] => [[]]
  | c :: cs =>
    if c = sep then [] :: pySplit sep cs
    else
      match pySplit sep cs with
      | [] => [[c]]
      | s :: ss => (c :: s) :: ss

/-- The `segments[1:-1] = filter(None, segments[1:-1])` line of `urljoin`. -/
def filterInnerSegments (segs : List Str) : List Str :=
  match segs with
  | [] => []
  | s :: rest =>
    if rest = [] then [s]
    else s :: (rest.dropLast.filter (fun x => x ≠ [])) ++ [rest.getLastD []]

/-- The `..`/`.` resolution loop of `urljoin`. -/
def resolveSegments (segments : List Str) : List Str :=
  let resolved := segments.foldl
    (fun acc seg =>
      if seg = "..".toList then acc.dropLast
      else if seg = ".".toList then acc
      else acc ++ [seg]) ([] : List Str)
  if segments.getLastD [] = ".".toList ∨ segments.getLastD [] = "..".toList then
    resolved ++ [[]]
  else resolved

/-- CPython `urllib.parse.urljoin` (3.11, `allow_fragments=True`).  The
    `ValueError` that `urlparse` may raise propagates to the caller. -/
def urljoin (base url : Str) : Except Str Str :=
  if base = [] then .ok url
  else if url = [] then .ok base
  else do
    let b ← urlparseE [] base
    let u ← urlparseE b.scheme url
    if u.scheme ≠ b.scheme ∨ u.scheme ∉ uses_relative then
      pure url
    else if u.scheme ∈ uses_netloc ∧ u.netloc ≠ [] then
      pure (urlunparse u.scheme u.netloc u.path u.params u.query u.fragment)
    else
      let netloc := if u.scheme ∈ uses_netloc then b.netloc else u.netloc
      if u.path = [] ∧ u.params = [] then
        let query := if u.query = [] then b.query else u.query
        pure (urlunparse u.scheme netloc b.path b.params query u.fragment)
      else
        let base_parts :=
          let bp := pySplit '/' b.path
          if bp.getLastD [] ≠ [] then bp.dropLast else bp
        let segments :=
          if u.path.take 1 = ['/'] then pySplit '/' u.path
          else filterInnerSegments (base_parts ++ pySplit '/' u.path)
        let joined := List.intercalate ['/'] (resolveSegments segments)
        let path := if joined = [] then ['/'] else joined
        pure (urlunparse u.scheme netloc path u.params u.query u.fragment)

/-! ## The crawl controller (`WebCrawler.crawl`, crawler.py lines 160-224) -/

/-- Crawler configuration (the `WebCrawler.__init__` fields; `delay` only
    feeds `time.sleep` and is omitted). -/
structure CrawlConfig where
  max_depth : Nat
  max_pages : Nat
  allow_external : Bool

/-- The dict returned by a successful `WebCrawler.fetch_page` minus its
    `'url'` key, which is always the requested url itself (crawler.py 146). -/
structure PageData where
  title : Str
  content : Str
  links : List Str

/-- The dict yielded by `WebCrawler.crawl` for one page (crawler.py 204-208). -/
structure PageRecord where
  url : Str
  title : Str
  content : Str
deriving Repr, DecidableEq

/-- State of one crawl invocation: the local variables `crawl_queue` and
    `pages_crawled`, the instance field `self.visited`, the list of records
    yielded so far, and — as instrumentation — every `(url, depth)` pair that
    was passed to `fetch_page`. -/
structure CrawlState where
  queue : List (Str × Nat)
  visited : List Str
  pages_crawled : Nat
  records : List PageRecord
  fetched : List (Str × Nat)
deriving Repr, DecidableEq

/-- The link-enqueuing block of `WebCrawler.crawl` (crawler.py 212-218):
    `urljoin`, `normalize_url`, then the visited/`is_valid_url` filter.
    A `ValueError` raised by `urljoin`/`normalize_url` propagates (these two
    calls are not inside any try/except). -/
def enqueueLinks (allow_external : Bool) (base_domain : Str) (visited : List Str)
    (current_url : Str) (depth : Nat) : List Str → Except Str (List (Str × Nat))
  | [] => .ok []
  | link :: rest => do
    let absolute_url ← urljoin current_url link
    let normalized_url ← normalize_url absolute_url
    let entry :=
      if normalized_url ∉ visited ∧
          is_valid_url allow_external normalized_url base_domain = true then
        [(normalized_url, depth + 1)]
      else []
    let tailEntries ← enqueueLinks allow_external base_domain visited current_url depth rest
    pure (entry ++ tailEntries)

/-- The `while crawl_queue and pages_crawled < max_pages` loop of
    `WebCrawler.crawl` (crawler.py 181-222), driven by explicit fuel.
    The second component is `some msg` when the loop aborted with an uncaught
    `ValueError` from the link-enqueueing block (the state holds everything
    produced up to that point); it is `none` on normal loop exit or when the
    fuel runs out. -/
def crawlLoop (cfg : CrawlConfig) (fetch : Str → Option PageData) (base_domain : Str) :
    Nat → CrawlState → CrawlState × Option Str
  | 0, st => (st, none)
  | fuel + 1, st =>
    match st.queue with
    | [] => (st, none)
    | (current_url, depth) :: rest =>
      if st.pages_crawled < cfg.max_pages then
        if current_url ∈ st.visited then
          crawlLoop cfg fetch base_domain fuel { st with queue := rest }
        else if cfg.max_depth < depth then
          crawlLoop cfg fetch base_domain fuel { st with queue := rest }
        else
          let st1 : CrawlState :=
            { st with
                queue := rest
                visited := st.visited ++ [current_url]
                fetched := st.fetched ++ [(current_url, depth)] }
          match fetch current_url with
          | none => crawlLoop cfg fetch base_domain fuel st1
          | some page =>
            let st2 : CrawlState :=
              { st1 with
                  pages_crawled := st1.pages_crawled + 1
                  records := st1.records ++ [⟨current_url, page.title, page.content⟩] }
            if depth < cfg.max_depth then
              match enqueueLinks cfg.allow_external base_domain st2.visited
                  current_url depth page.links with
              | .error e => (st2, some e)
              | .ok entries =>
                crawlLoop cfg fetch base_domain fuel { st2 with queue := rest ++ entries }
            else
              crawlLoop cfg fetch base_domain fuel st2
      else (st, none)

/-- `WebCrawler.crawl` (crawler.py 160-224): normalize the seed, compute
    `base_domain`, seed the queue at depth 0 and run the loop.  `visited₀` is
    the content of `self.visited` when `crawl` is entered: it is instance
    state created in `__init__`, not reset by `crawl`. -/
def crawl (cfg : CrawlConfig) (fetch : Str → Option PageData) (visited₀ : List Str)
    (start_url : Str) (fuel : Nat) : Except Str (CrawlState × Option Str) := do
  let s ← normalize_url start_url
  let p ← urlparseE [] s
  pure (crawlLoop cfg fetch p.netloc fuel
    { queue := [(s, 0)], visited := visited₀, pages_crawled := 0,
      records := [], fetched := [] })

/-- The seed validation that `src/app.py` (lines 82-95) performs before
    constructing a fresh `WebCrawler` and starting a crawl: the crawl starts
    only when the seed URL parses with a non-empty scheme and netloc, and the
    crawler it starts has a fresh (empty) visited set.  `none` means the app
    refused the seed and never invoked the crawler. -/
def appStartCrawl (cfg : CrawlConfig) (fetch : Str → Option PageData)
    (start_url : Str) (fuel : Nat) : Option (Except Str (CrawlState × Option Str)) :=
  match urlparseE [] start_url with
  | .error _ => none
  | .ok p =>
    if p.scheme = [] ∨ p.netloc = [] then none
    else some (crawl cfg fetch [] start_url fuel)

/-! ## Concrete fetch oracles and auxiliary forms used by the analyses -/

/-- The fetch behaviour used by the C7 counterexample: the seed page exists
    and has no links, everything else fails. -/
def c7fetch : Str → Option PageData := fun u =>
  if u = "http://a.com".toList then some ⟨"T".toList, "Hello".toList, []⟩ else none

/-- The fetch behaviour of the C8 witness: the seed page links to one
    same-domain page and one external page. -/
def c8fetch : Str → Option PageData := fun u =>
  if u = "http://a.com".toList then
    some ⟨"T".toList, "X".toList, ["/b".toList, "http://evil.com/c".toList]⟩
  else none

/-- The href filter of `TextExtractor._extract_links` (text_extractor.py
    line 191): an href is skipped when it is empty or starts with `#`,
    `javascript:`, `mailto:` or `tel:`. -/
def skippedHref (href : Str) : Bool :=
  href.isEmpty || "#".toList.isPrefixOf href ||
    "javascript:".toList.isPrefixOf href ||
    "mailto:".toList.isPrefixOf href || "tel:".toList.isPrefixOf href

/-- `TextExtractor._extract_links` (text_extractor.py lines 186-197): every
    kept href is resolved through `urljoin(base_url, href)` and appended; the
    whole loop sits inside a `try/except` that swallows any exception, so an
    href whose `urljoin` raises ends collection and the links gathered so far
    are returned.  (`href.strip()` is omitted — hrefs are taken as already
    stripped — and the order-scrambling `list(set(links))` deduplication is
    omitted; neither changes which links can appear.) -/
def extract_links (base_url : Str) : List Str → List Str
  | [] => []
  | href :: rest =>
    if skippedHref href then extract_links base_url rest
    else
      match urljoin base_url href with
      | .error _ => []
      | .ok a => a :: extract_links base_url rest

/-- The fetch behaviour of the C3 witness: the seed page's link list is what
    `TextExtractor._extract_links` produces at the page's own URL from two
    raw hrefs — one fine (`/b`) and one malformed (`http://[bad`) — exactly
    how `fetch_page` builds `page_data['links']`. -/
def c3fetch : Str → Option PageData := fun u =>
  if u = "http://a.com".toList then
    some ⟨"T".toList, "X".toList,
      extract_links u ["/b".toList, "http://[bad".toList]⟩
  else none

/-- The spec's trailing-slash rule (§4.1) as a transformation of the path
    alone: strip exactly one trailing `'/'` unless the path is the root. -/
def stripTrailingSlash (path : Str) : Str :=
  if path.getLast? = some '/' ∧ path.length > 1 then path.dropLast else path

/-- The canonical assembled form of a URL with authority: scheme part,
    `//` marker, netloc, path region, query part. -/
def assembleU (s n pp q : Str) : Str :=
  (if s ≠ [] then s ++ [':'] else []) ++ ['/', '/'] ++ n ++ pp ++
    (if q ≠ [] then '?' :: q else [])

/-! ## Invariant machinery for the crawl loop -/

/-- Any property preserved by the four kinds of loop iteration (skip,
    failed fetch, emission without enqueueing, emission with enqueueing)
    holds for the state `crawlLoop` returns, for every fuel value —
    i.e. at every step of every run, including aborted ones. -/
theorem crawlLoop_inv (cfg : CrawlConfig) (fetch : Str → Option PageData)
    (base : Str) (P : CrawlState → Prop)
    (hskip : ∀ (st : CrawlState) (u : Str) (d : Nat) rest, st.queue = (u, d) :: rest → P st →
      P { st with queue := rest })
    (hfail : ∀ (st : CrawlState) (u : Str) (d : Nat) rest, st.queue = (u, d) :: rest →
      st.pages_crawled < cfg.max_pages → u ∉ st.visited → ¬ cfg.max_depth < d →
      fetch u = none → P st →
      P { st with
            queue := rest
            visited := st.visited ++ [u]
            fetched := st.fetched ++ [(u, d)] })
    (hemit : ∀ (st : CrawlState) (u : Str) (d : Nat) rest page, st.queue = (u, d) :: rest →
      st.pages_crawled < cfg.max_pages → u ∉ st.visited → ¬ cfg.max_depth < d →
      fetch u = some page → P st →
      P { st with
            queue := rest
            visited := st.visited ++ [u]
            fetched := st.fetched ++ [(u, d)]
            pages_crawled := st.pages_crawled + 1
            records := st.records ++ [⟨u, page.title, page.content⟩] })
    (hlinks : ∀ (st : CrawlState) (u : Str) (d : Nat) rest page entries, st.queue = (u, d) :: rest →
      st.pages_crawled < cfg.max_pages → u ∉ st.visited → d < cfg.max_depth →
      fetch u = some page →
      enqueueLinks cfg.allow_external base (st.visited ++ [u]) u d page.links
        = .ok entries →
      P { st with
            queue := rest
            visited := st.visited ++ [u]
            fetched := st.fetched ++ [(u, d)]
            pages_crawled := st.pages_crawled + 1
            records := st.records ++ [⟨u, page.title, page.content⟩] } →
      P { st with
            queue := rest ++ entries
            visited := st.visited ++ [u]
            fetched := st.fetched ++ [(u, d)]
            pages_crawled := st.pages_crawled + 1
            records := st.records ++ [⟨u, page.title, page.content⟩] }) :
    ∀ fuel st, P st → P (crawlLoop cfg fetch base fuel st).1 := by
  intro fuel
  induction fuel with
  | zero => intro st h; simpa [crawlLoop] using h
  | succ n ih =>
    intro st h
    rcases hq : st.queue with _ | ⟨⟨u, d⟩, rest⟩
    · simpa [crawlLoop, hq] using h
    · by_cases hpg : st.pages_crawled < cfg.max_pages
      · by_cases hv : u ∈ st.visited
        · simpa [crawlLoop, hq, hpg, hv] using ih _ (hskip st u d rest hq h)
        · by_cases hd : cfg.max_depth < d
          · simpa [crawlLoop, hq, hpg, hv, hd] using ih _ (hskip st u d rest hq h)
          · rcases hf : fetch u with _ | page
            · simpa [crawlLoop, hq, hpg, hv, hd, hf] using
                ih _ (hfail st u d rest hq hpg hv hd hf h)
            · by_cases hdd : d < cfg.max_depth
              · rcases he : enqueueLinks cfg.allow_external base
                    (st.visited ++ [u]) u d page.links with e | entries
                · simpa [crawlLoop, hq, hpg, hv, hd, hf, hdd, he] using
                    hemit st u d rest page hq hpg hv hd hf h
                · simpa [crawlLoop, hq, hpg, hv, hd, hf, hdd, he] using
                    ih _ (hlinks st u d rest page entries hq hpg hv hdd hf he
                      (hemit st u d rest page hq hpg hv hd hf h))
              · simpa [crawlLoop, hq, hpg, hv, hd, hf, hdd] using
                  ih _ (hemit st u d rest page hq hpg hv hd hf h)
      · simpa [crawlLoop, hq, hpg] using h

@[simp] theorem okBind {ε α β : Type u} (a : α) (f : α → Except ε β) :
    (Except.ok a >>= f) = f a := rfl

@[simp] theorem errorBind {ε α β : Type u} (e : ε) (f : α → Except ε β) :
    ((Except.error e : Except ε α) >>= f) = Except.error e := rfl

/-- Unfolding `crawl` once the seed normalizes and re-parses. -/
theorem crawl_eq (cfg : CrawlConfig) (fetch : Str → Option PageData)
    (visited₀ : List Str) (start_url : Str) (fuel : Nat) (s : Str) (p : ParseResult)
    (hs : normalize_url start_url = .ok s) (hp : urlparseE [] s = .ok p) :
    crawl cfg fetch visited₀ start_url fuel =
      .ok (crawlLoop cfg fetch p.netloc fuel
        { queue := [(s, 0)], visited := visited₀, pages_crawled := 0,
          records := [], fetched := [] }) := by
  simp [crawl, hs, hp]

/-- C1: for every crawl run (any config, any fetch behaviour, any seed, any
    number of loop steps — so at every step of every run, including runs that
    abort), the number of emitted page records equals `pages_crawled` and
    never exceeds `max_pages`, and every `(url, depth)` pair ever handed to
    `fetch_page` has `depth ≤ max_depth` (entries deeper than `max_depth` are
    discarded at dequeue and never fetched, hence never emitted). -/
theorem c1_budget_and_depth (cfg : CrawlConfig) (fetch : Str → Option PageData)
    (visited₀ : List Str) (start_url : Str) (fuel : Nat) (st : CrawlState)
    (err : Option Str)
    (h : crawl cfg fetch visited₀ start_url fuel = .ok (st, err)) :
    st.records.length = st.pages_crawled ∧ st.pages_crawled ≤ cfg.max_pages ∧
      ∀ e ∈ st.fetched, e.2 ≤ cfg.max_depth := by
  rcases hs : normalize_url start_url with e | s
  · simp [crawl, hs] at h
  rcases hp : urlparseE [] s with e | p
  · simp [crawl, hs, hp] at h
  rw [crawl_eq cfg fetch visited₀ start_url fuel s p hs hp] at h
  have hst : st = (crawlLoop cfg fetch p.netloc fuel
      { queue := [(s, 0)], visited := visited₀, pages_crawled := 0,
        records := [], fetched := [] }).1 := by
    cases h' : crawlLoop cfg fetch p.netloc fuel
        { queue := [(s, 0)], visited := visited₀, pages_crawled := 0,
          records := [], fetched := [] }
    rw [h'] at h
    simp_all
  subst hst
  apply crawlLoop_inv cfg fetch p.netloc
    (fun st => st.records.length = st.pages_crawled ∧
      st.pages_crawled ≤ cfg.max_pages ∧ ∀ e ∈ st.fetched, e.2 ≤ cfg.max_depth)
  · intro st u d rest _ hP
    simpa using hP
  · intro st u d rest _ _ _ hd _ hP
    obtain ⟨h1, h2, h3⟩ := hP
    refine ⟨by simpa using h1, by simpa using h2, ?_⟩
    intro e he
    simp only [List.mem_append, List.mem_singleton] at he
    rcases he with he | he
    · exact h3 e he
    · subst he; omega
  · intro st u d rest page _ hpg _ hd _ hP
    obtain ⟨h1, h2, h3⟩ := hP
    refine ⟨by simpa using h1, by simpa using hpg, ?_⟩
    intro e he
    simp only [List.mem_append, List.mem_singleton] at he
    rcases he with he | he
    · exact h3 e he
    · subst he; omega
  · intro st u d rest page entries _ _ _ _ _ _ hP
    exact hP
  · exact ⟨rfl, Nat.zero_le _, by simp⟩

/-- C2: within one crawl run no normalized URL is passed to `fetch_page`
    twice, and the visited set grows by exactly the fetched URLs in fetch
    order — a URL enters `visited` exactly when it is dequeued and fetched,
    never at enqueue time (so the frontier may hold duplicates, but every
    dequeue after the first finds the URL in `visited` and discards it). -/
theorem c2_fetch_at_most_once (cfg : CrawlConfig) (fetch : Str → Option PageData)
    (visited₀ : List Str) (start_url : Str) (fuel : Nat) (st : CrawlState)
    (err : Option Str)
    (h : crawl cfg fetch visited₀ start_url fuel = .ok (st, err)) :
    (st.fetched.map Prod.fst).Nodup ∧
      st.visited = visited₀ ++ st.fetched.map Prod.fst := by
  rcases hs : normalize_url start_url with e | s
  · simp [crawl, hs] at h
  rcases hp : urlparseE [] s with e | p
  · simp [crawl, hs, hp] at h
  rw [crawl_eq cfg fetch visited₀ start_url fuel s p hs hp] at h
  have hst : st = (crawlLoop cfg fetch p.netloc fuel
      { queue := [(s, 0)], visited := visited₀, pages_crawled := 0,
        records := [], fetched := [] }).1 := by
    cases h' : crawlLoop cfg fetch p.netloc fuel
        { queue := [(s, 0)], visited := visited₀, pages_crawled := 0,
          records := [], fetched := [] }
    rw [h'] at h
    simp_all
  subst hst
  apply crawlLoop_inv cfg fetch p.netloc
    (fun st => (st.fetched.map Prod.fst).Nodup ∧
      st.visited = visited₀ ++ st.fetched.map Prod.fst)
  · intro st u d rest _ hP
    simpa using hP
  · intro st u d rest _ _ hv _ _ hP
    obtain ⟨h1, h2⟩ := hP
    have hu : u ∉ st.fetched.map Prod.fst := fun hmem => hv (by rw [h2]; simp [hmem])
    constructor
    · have hmap : ((st.fetched ++ [(u, d)]).map Prod.fst)
          = st.fetched.map Prod.fst ++ [u] := by simp
      rw [hmap, List.nodup_append]
      refine ⟨h1, List.nodup_singleton u, ?_⟩
      intro a ha hamem
      rw [List.mem_singleton] at hamem
      exact hu (hamem ▸ ha)
    · simp [h2, List.append_assoc]
  · intro st u d rest page _ _ hv _ _ hP
    obtain ⟨h1, h2⟩ := hP
    have hu : u ∉ st.fetched.map Prod.fst := fun hmem => hv (by rw [h2]; simp [hmem])
    constructor
    · have hmap : ((st.fetched ++ [(u, d)]).map Prod.fst)
          = st.fetched.map Prod.fst ++ [u] := by simp
      rw [hmap, List.nodup_append]
      refine ⟨h1, List.nodup_singleton u, ?_⟩
      intro a ha hamem
      rw [List.mem_singleton] at hamem
      exact hu (hamem ▸ ha)
    · simp [h2, List.append_assoc]
  · intro st u d rest page entries _ _ _ _ _ _ hP
    exact hP
  · simp

/-- Witness for C1: a concrete one-page run against a fetch that fails. -/
theorem c1_witness :
    ([] : List PageRecord).length = 0 ∧ 0 ≤ 5 ∧
      ∀ e ∈ [("http://a.com".toList, 0)], e.2 ≤ 1 :=
  c1_budget_and_depth ⟨1, 5, false⟩ (fun _ => none) [] "http://a.com".toList 10
    { queue := [], visited := ["http://a.com".toList], pages_crawled := 0,
      records := [], fetched := [("http://a.com".toList, 0)] } none rfl

/-- Witness for C2: a concrete run starting with a non-empty visited set. -/
theorem c2_witness :
    ([("http://b.org/p".toList, 0)].map Prod.fst).Nodup ∧
      ["x".toList, "http://b.org/p".toList] =
        ["x".toList] ++ [("http://b.org/p".toList, 0)].map Prod.fst :=
  c2_fetch_at_most_once ⟨2, 10, false⟩ (fun _ => none) ["x".toList]
    "http://b.org/p".toList 10
    { queue := [], visited := ["x".toList, "http://b.org/p".toList],
      pages_crawled := 0, records := [], fetched := [("http://b.org/p".toList, 0)] }
    none rfl

/-- A list whose `head?` is known keeps it under appending. -/
theorem head?_append_of_some {α : Type u} {l : List α} {a : α}
    (h : l.head? = some a) (t : List α) : (l ++ t).head? = some a := by
  cases l <;> simp_all

/-- The crawl loop is the identity on states with an empty frontier. -/
theorem crawlLoop_nil_queue (cfg : CrawlConfig) (fetch : Str → Option PageData)
    (base : Str) (fuel : Nat) (st : CrawlState) (h : st.queue = []) :
    crawlLoop cfg fetch base fuel st = (st, none) := by
  cases fuel <;> simp [crawlLoop, h]

/-- C10: the dequeued-and-fetched seed is never checked by `is_valid_url`:
    whenever the run can make a first step (positive page budget, seed not
    already visited), the very first URL handed to `fetch_page` is the
    normalized seed at depth 0 — with no validity hypothesis at all, so also
    for seeds with an excluded extension or a non-http scheme (see the
    witness); `is_valid_url` is only ever applied to discovered links. -/
theorem c10_seed_fetched_unvalidated (cfg : CrawlConfig)
    (fetch : Str → Option PageData) (visited₀ : List Str) (start_url : Str)
    (fuel : Nat) (s : Str) (p : ParseResult) (st : CrawlState) (err : Option Str)
    (hs : normalize_url start_url = .ok s) (hp : urlparseE [] s = .ok p)
    (hmp : 0 < cfg.max_pages) (hnv : s ∉ visited₀)
    (h : crawl cfg fetch visited₀ start_url (fuel + 1) = .ok (st, err)) :
    st.fetched.head? = some (s, 0) := by
  rw [crawl_eq cfg fetch visited₀ start_url (fuel + 1) s p hs hp] at h
  have hst : st = (crawlLoop cfg fetch p.netloc (fuel + 1)
      { queue := [(s, 0)], visited := visited₀, pages_crawled := 0,
        records := [], fetched := [] }).1 := by
    cases h' : crawlLoop cfg fetch p.netloc (fuel + 1)
        { queue := [(s, 0)], visited := visited₀, pages_crawled := 0,
          records := [], fetched := [] }
    rw [h'] at h
    simp_all
  subst hst
  have hinv := crawlLoop_inv cfg fetch p.netloc
    (fun st => st.fetched.head? = some (s, 0))
    (fun st u d rest _ hP => hP)
    (fun st u d rest _ _ _ _ _ hP => head?_append_of_some hP _)
    (fun st u d rest page _ _ _ _ _ hP => head?_append_of_some hP _)
    (fun st u d rest page entries _ _ _ _ _ _ hP => hP) fuel
  rcases hf : fetch s with _ | page
  · simpa [crawlLoop, hmp, hnv, hf] using
      hinv { queue := [], visited := visited₀ ++ [s], pages_crawled := 0,
             records := [], fetched := [(s, 0)] } rfl
  · by_cases hdd : 0 < cfg.max_depth
    · rcases he : enqueueLinks cfg.allow_external p.netloc (visited₀ ++ [s]) s 0
          page.links with e | entries
      · simp [crawlLoop, hmp, hnv, hf, hdd, he]
      · simpa [crawlLoop, hmp, hnv, hf, hdd, he] using
          hinv { queue := [] ++ entries, visited := visited₀ ++ [s],
                 pages_crawled := 1,
                 records := [⟨s, page.title, page.content⟩],
                 fetched := [(s, 0)] } rfl
    · simpa [crawlLoop, hmp, hnv, hf, hdd] using
        hinv { queue := [], visited := visited₀ ++ [s], pages_crawled := 1,
               records := [⟨s, page.title, page.content⟩],
               fetched := [(s, 0)] } rfl

/-- Witness for C10: a seed whose path ends in `.pdf` — for which
    `is_valid_url` is `false` — is still fetched first. -/
theorem c10_witness :
    is_valid_url false "http://a.com/f.pdf".toList "a.com".toList = false ∧
      [("http://a.com/f.pdf".toList, 0)].head? = some ("http://a.com/f.pdf".toList, 0) :=
  ⟨by decide,
    c10_seed_fetched_unvalidated ⟨2, 10, false⟩ (fun _ => none) []
      "http://a.com/f.pdf".toList 9 "http://a.com/f.pdf".toList
      ⟨"http".toList, "a.com".toList, "/f.pdf".toList, [], [], []⟩
      { queue := [], visited := ["http://a.com/f.pdf".toList], pages_crawled := 0,
        records := [], fetched := [("http://a.com/f.pdf".toList, 0)] } none
      rfl rfl (by decide) (by decide) rfl⟩

/-- C6 counterexample: the seed `example.com` has neither scheme nor
    authority, yet the Controller (`WebCrawler.crawl`) raises nothing — there
    is no `ConfigError` anywhere in the code — and it still dequeues the seed
    and calls `fetch_page` on it (the `fetched` instrumentation is non-empty),
    contradicting "no fetch is attempted".  (`requests` then fails and the
    failure is swallowed, so the run just ends with no records.) -/
theorem c6_counterexample :
    urlparseE [] "example.com".toList =
      .ok ⟨[], [], "example.com".toList, [], [], []⟩ ∧
    crawl ⟨2, 10, false⟩ (fun _ => none) [] "example.com".toList 5 =
      .ok ({ queue := [], visited := ["example.com".toList], pages_crawled := 0,
             records := [], fetched := [("example.com".toList, 0)] }, none) ∧
    [("example.com".toList, 0)] ≠ ([] : List (Str × Nat)) :=
  ⟨rfl, rfl, by simp⟩

/-- C6 amended: the seed validation lives in the caller (`src/app.py`, lines
    82-95), not in the Controller: when the seed URL parses without a scheme
    or without an authority, the app refuses to start a crawl at all, so at
    the application level no fetch is attempted and no record is emitted for
    such a seed; the Controller itself raises no `ConfigError` and would fetch
    the seed regardless (see the counterexample). -/
theorem c6_app_rejects_bad_seed (cfg : CrawlConfig) (fetch : Str → Option PageData)
    (start_url : Str) (fuel : Nat) (p : ParseResult)
    (hp : urlparseE [] start_url = .ok p) (hbad : p.scheme = [] ∨ p.netloc = []) :
    appStartCrawl cfg fetch start_url fuel = none := by
  simp [appStartCrawl, hp, hbad]

/-- Witness for the amended C6 at the seed `example.com`. -/
theorem c6_witness :
    appStartCrawl ⟨2, 10, false⟩ (fun _ => none) "example.com".toList 5 = none :=
  c6_app_rejects_bad_seed ⟨2, 10, false⟩ (fun _ => none) "example.com".toList 5
    ⟨[], [], "example.com".toList, [], [], []⟩ rfl (.inl rfl)

/-- C7 counterexample: `self.visited` is created in `__init__` and never
    reset by `crawl`, so two `crawl()` invocations on the same `WebCrawler`
    share it.  Concretely: a first run from `http://a.com` fetches the seed
    and emits one record; a second run of the same instance (its visited set
    now carries over) dequeues the seed, finds it visited, discards it, and
    emits nothing — the second invocation does not begin from a fresh run
    state and is not independent of the earlier invocation. -/
theorem c7_counterexample :
    crawl ⟨1, 5, false⟩ c7fetch [] "http://a.com".toList 10 =
      .ok ({ queue := [], visited := ["http://a.com".toList], pages_crawled := 1,
             records := [⟨"http://a.com".toList, "T".toList, "Hello".toList⟩],
             fetched := [("http://a.com".toList, 0)] }, none) ∧
    crawl ⟨1, 5, false⟩ c7fetch ["http://a.com".toList] "http://a.com".toList 10 =
      .ok ({ queue := [], visited := ["http://a.com".toList], pages_crawled := 0,
             records := [], fetched := [] }, none) ∧
    ([⟨"http://a.com".toList, "T".toList, "Hello".toList⟩] : List PageRecord) ≠ [] :=
  ⟨rfl, rfl, by simp⟩

/-- C7 amended: each `crawl` invocation does begin with a fresh frontier
    (only the normalized seed, depth 0) and `pages_crawled = 0`, but the
    visited set is instance state that persists across invocations: whenever
    the normalized seed is already in `self.visited` when `crawl` is entered,
    the run fetches nothing, emits nothing, and leaves `visited` unchanged.
    (A run on a freshly constructed crawler — `visited₀ = []` as `app.py`
    always arranges — never hits this.) -/
theorem c7_second_run_starved (cfg : CrawlConfig) (fetch : Str → Option PageData)
    (visited₀ : List Str) (start_url : Str) (fuel : Nat) (s : Str)
    (st : CrawlState) (err : Option Str)
    (hs : normalize_url start_url = .ok s) (hv : s ∈ visited₀)
    (h : crawl cfg fetch visited₀ start_url fuel = .ok (st, err)) :
    st.records = [] ∧ st.fetched = [] ∧ st.visited = visited₀ ∧ err = none := by
  rcases hp : urlparseE [] s with e | p
  · simp [crawl, hs, hp] at h
  rw [crawl_eq cfg fetch visited₀ start_url fuel s p hs hp] at h
  rcases fuel with _ | n
  · simp [crawlLoop] at h
    obtain ⟨h1, h2⟩ := h
    subst h1; subst h2
    exact ⟨rfl, rfl, rfl, rfl⟩
  · by_cases hmp : 0 < cfg.max_pages
    · rw [show crawlLoop cfg fetch p.netloc (n + 1)
          { queue := [(s, 0)], visited := visited₀, pages_crawled := 0,
            records := [], fetched := [] } =
          crawlLoop cfg fetch p.netloc n
          { queue := [], visited := visited₀, pages_crawled := 0,
            records := [], fetched := [] } by simp [crawlLoop, hmp, hv],
        crawlLoop_nil_queue cfg fetch p.netloc n _ rfl] at h
      simp at h
      obtain ⟨h1, h2⟩ := h
      subst h1; subst h2
      exact ⟨rfl, rfl, rfl, rfl⟩
    · rw [show crawlLoop cfg fetch p.netloc (n + 1)
          { queue := [(s, 0)], visited := visited₀, pages_crawled := 0,
            records := [], fetched := [] } =
          ({ queue := [(s, 0)], visited := visited₀, pages_crawled := 0,
             records := [], fetched := [] }, none) by simp [crawlLoop, hmp]] at h
      simp at h
      obtain ⟨h1, h2⟩ := h
      subst h1; subst h2
      exact ⟨rfl, rfl, rfl, rfl⟩

/-- Witness for the amended C7: the second run of the concrete pair used in
    the counterexample. -/
theorem c7_witness :
    ([] : List PageRecord) = [] ∧ ([] : List (Str × Nat)) = [] ∧
      ["http://a.com".toList] = ["http://a.com".toList] ∧
      (none : Option Str) = none :=
  c7_second_run_starved ⟨1, 5, false⟩ c7fetch ["http://a.com".toList]
    "http://a.com".toList 10 "http://a.com".toList
    { queue := [], visited := ["http://a.com".toList], pages_crawled := 0,
      records := [], fetched := [] } none rfl (by decide) rfl

/-- C9: `is_valid_url` rejects every URL whose (lower-cased) path ends in one
    of the 24 excluded extensions — the comparison lower-cases the path, so
    `.JPG` is rejected exactly like `.jpg` (see the witness). -/
theorem c9_excluded_extension (allow_external : Bool) (url base_domain : Str)
    (q : ParseResult) (ext : Str)
    (hq : urlparseE [] url = .ok q) (hext : ext ∈ excludedExtensions)
    (hsuf : ext.isSuffixOf (lowerStr q.path) = true) :
    is_valid_url allow_external url base_domain = false := by
  have hany : excludedExtensions.any (fun e => e.isSuffixOf (lowerStr q.path)) = true :=
    List.any_eq_true.mpr ⟨ext, hext, hsuf⟩
  simp only [is_valid_url, hq]
  split_ifs <;> simp_all

/-- Every enqueued entry passed `is_valid_url` and sits one level deeper than
    the page it was found on (crawler.py 216-218). -/
theorem enqueueLinks_mem (ae : Bool) (base : Str) (visited : List Str)
    (u : Str) (d : Nat) (links : List Str) (entries : List (Str × Nat))
    (h : enqueueLinks ae base visited u d links = .ok entries) :
    ∀ e ∈ entries, is_valid_url ae e.1 base = true ∧ e.2 = d + 1 := by
  induction links generalizing entries with
  | nil =>
    simp [enqueueLinks] at h
    subst h; simp
  | cons link rest ih =>
    rcases hj : urljoin u link with ej | a
    · simp [enqueueLinks, hj] at h
    rcases hn : normalize_url a with en | n
    · simp [enqueueLinks, hj, hn] at h
    rcases ht : enqueueLinks ae base visited u d rest with et | tailEntries
    · simp [enqueueLinks, hj, hn, ht] at h
    have htail := ih tailEntries ht
    simp only [enqueueLinks, hj, hn, ht, okBind] at h
    by_cases hc : n ∉ visited ∧ is_valid_url ae n base = true
    · simp [hc, pure, Except.pure] at h
      subst h
      intro e he
      rcases List.mem_cons.mp he with he | he
      · subst he; exact ⟨hc.2, rfl⟩
      · exact htail e he
    · simp [hc, pure, Except.pure] at h
      subst h
      exact htail

/-- With `allow_external = false`, `is_valid_url` accepts only URLs that
    parse with exactly the base authority (crawler.py 64-66). -/
theorem is_valid_url_netloc (url base : Str)
    (h : is_valid_url false url base = true) :
    ∃ q, urlparseE [] url = .ok q ∧ q.netloc = base := by
  rcases hq : urlparseE [] url with e | q
  · simp [is_valid_url, hq] at h
  refine ⟨q, rfl, ?_⟩
  simp only [is_valid_url, hq] at h
  split_ifs at h with h1 h2 h3 h4
  by_contra hne
  exact h2 ⟨by simp, hne⟩

/-- C8: with `allow_external = false`, every frontier entry and every emitted
    record of every run (at every step, any fetch behaviour, any seed) has an
    authority exactly equal to `base_domain` — the authority the crawler
    computes from the normalized seed (spec §4.4 step 1), here `p.netloc`.
    External URLs are never enqueued, so never fetched, so never emitted. -/
theorem c8_same_authority_only (cfg : CrawlConfig) (fetch : Str → Option PageData)
    (visited₀ : List Str) (start_url : Str) (fuel : Nat) (s : Str)
    (p : ParseResult) (st : CrawlState) (err : Option Str)
    (hcfg : cfg.allow_external = false)
    (hs : normalize_url start_url = .ok s) (hp : urlparseE [] s = .ok p)
    (h : crawl cfg fetch visited₀ start_url fuel = .ok (st, err)) :
    (∀ e ∈ st.queue, ∃ q, urlparseE [] e.1 = .ok q ∧ q.netloc = p.netloc) ∧
      ∀ r ∈ st.records, ∃ q, urlparseE [] r.url = .ok q ∧ q.netloc = p.netloc := by
  rw [crawl_eq cfg fetch visited₀ start_url fuel s p hs hp] at h
  have hst : st = (crawlLoop cfg fetch p.netloc fuel
      { queue := [(s, 0)], visited := visited₀, pages_crawled := 0,
        records := [], fetched := [] }).1 := by
    cases h' : crawlLoop cfg fetch p.netloc fuel
        { queue := [(s, 0)], visited := visited₀, pages_crawled := 0,
          records := [], fetched := [] }
    rw [h'] at h
    simp_all
  subst hst
  apply crawlLoop_inv cfg fetch p.netloc
    (fun st => (∀ e ∈ st.queue, ∃ q, urlparseE [] e.1 = .ok q ∧ q.netloc = p.netloc) ∧
      ∀ r ∈ st.records, ∃ q, urlparseE [] r.url = .ok q ∧ q.netloc = p.netloc)
  · intro st u d rest hq hP
    exact ⟨fun e he => hP.1 e (by rw [hq]; exact List.mem_cons_of_mem _ he), hP.2⟩
  · intro st u d rest hq _ _ _ _ hP
    exact ⟨fun e he => hP.1 e (by rw [hq]; exact List.mem_cons_of_mem _ he), hP.2⟩
  · intro st u d rest page hq _ _ _ _ hP
    refine ⟨fun e he => hP.1 e (by rw [hq]; exact List.mem_cons_of_mem _ he), ?_⟩
    intro r hr
    simp only [List.mem_append, List.mem_singleton] at hr
    rcases hr with hr | hr
    · exact hP.2 r hr
    · subst hr
      exact hP.1 (u, d) (by rw [hq]; exact List.mem_cons_self _ _)
  · intro st u d rest page entries hq _ _ _ _ he hP
    refine ⟨?_, hP.2⟩
    intro e hemem
    simp only [List.mem_append] at hemem
    rcases hemem with hemem | hemem
    · exact hP.1 e hemem
    · have := (enqueueLinks_mem cfg.allow_external p.netloc _ u d page.links entries
        he e hemem).1
      rw [hcfg] at this
      exact is_valid_url_netloc e.1 p.netloc this
  · constructor
    · intro e he
      simp only [List.mem_singleton] at he
      subst he
      exact ⟨p, hp, rfl⟩
    · simp

/-- Witness for C8: in the concrete run only `http://a.com` is emitted;
    `/b` resolves to the same authority and is fetched (unsuccessfully);
    `http://evil.com/c` fails `is_valid_url` and is never enqueued. -/
theorem c8_witness :
    (∀ e ∈ ([] : List (Str × Nat)),
        ∃ q, urlparseE [] e.1 = .ok q ∧ q.netloc = "a.com".toList) ∧
      ∀ r ∈ [(⟨"http://a.com".toList, "T".toList, "X".toList⟩ : PageRecord)],
        ∃ q, urlparseE [] r.url = .ok q ∧ q.netloc = "a.com".toList :=
  c8_same_authority_only ⟨2, 10, false⟩ c8fetch [] "http://a.com".toList 10
    "http://a.com".toList ⟨"http".toList, "a.com".toList, [], [], [], []⟩
    { queue := [],
      visited := ["http://a.com".toList, "http://a.com/b".toList],
      pages_crawled := 1,
      records := [⟨"http://a.com".toList, "T".toList, "X".toList⟩],
      fetched := [("http://a.com".toList, 0), ("http://a.com/b".toList, 1)] }
    none rfl rfl rfl rfl

/-! ## The trailing-slash rule (C4/C5) -/

/-- Dropping the last element of a list with at least two elements does not
    change its first element. -/
theorem take_one_dropLast : ∀ {l : Str}, 2 ≤ l.length → l.dropLast.take 1 = l.take 1
  | _ :: _ :: _, _ => by simp [List.dropLast]

/-- Shape of `urlunsplit` with a non-empty netloc, empty query and fragment:
    scheme part, `//` marker, netloc, then the (possibly `/`-padded) path. -/
theorem urlunsplit_netloc_eq (s n pp : Str) (hn : n ≠ []) :
    urlunsplit s n pp [] [] =
      (if s ≠ [] then s ++ [':'] else []) ++ ['/', '/'] ++ n ++
        (if pp ≠ [] ∧ pp.take 1 ≠ ['/'] then '/' :: pp else pp) := by
  simp only [urlunsplit, ne_eq, hn, not_false_eq_true, List.cons_ne_self,
    not_true_eq_false, false_and, or_false, true_or, if_true, reduceIte]
  split_ifs <;> simp_all [List.append_assoc]

/-- `normalize_url`'s final-character strip, applied to an assembled URL with
    a non-empty netloc and an empty query, is exactly the spec's
    strip-one-trailing-slash-from-the-path rule. -/
theorem unsplit_strip_of_netloc (s n pp : Str) (hn : n ≠ []) :
    (if (urlunsplit s n pp [] []).getLast? = some '/' ∧ pp.length > 1
      then (urlunsplit s n pp [] []).dropLast else urlunsplit s n pp [] [])
    = urlunsplit s n (stripTrailingSlash pp) [] [] := by
  by_cases hlen : pp.length > 1
  · have hpp : pp ≠ [] := by
      intro hcon; rw [hcon] at hlen; simp at hlen
    have hpad : (if pp ≠ [] ∧ pp.take 1 ≠ ['/'] then '/' :: pp else pp) ≠ [] := by
      split_ifs <;> simp_all
    have hlast : (urlunsplit s n pp [] []).getLast? = pp.getLast? := by
      rw [urlunsplit_netloc_eq s n pp hn,
        List.getLast?_append_of_ne_nil _ hpad]
      split_ifs with hcond
      · exact List.getLast?_append_cons [] '/' pp ▸
          List.getLast?_append_of_ne_nil ['/'] hpp
      · rfl
    rw [hlast]
    by_cases hsl : pp.getLast? = some '/'
    · have hdl : pp.dropLast ≠ [] := by
        intro hcon
        have := List.length_dropLast pp
        rw [hcon] at this
        simp at this
        omega
      have htk : pp.dropLast.take 1 = pp.take 1 := take_one_dropLast (by omega)
      have hstrip : stripTrailingSlash pp = pp.dropLast := by
        simp [stripTrailingSlash, hsl, hlen]
      simp only [hsl, hlen, and_self, if_true, hstrip]
      by_cases hcond : pp ≠ [] ∧ pp.take 1 ≠ ['/']
      · rw [urlunsplit_netloc_eq s n pp hn, urlunsplit_netloc_eq s n pp.dropLast hn,
          if_pos hcond,
          if_pos (show pp.dropLast ≠ [] ∧ pp.dropLast.take 1 ≠ ['/'] from
            ⟨hdl, htk ▸ hcond.2⟩),
          List.dropLast_append_of_ne_nil _ (List.cons_ne_nil '/' pp)]
        congr 1
        rw [show ('/' :: pp) = ['/'] ++ pp from rfl,
          List.dropLast_append_of_ne_nil _ hpp]
        rfl
      · have hsl1 : pp.take 1 = ['/'] := by
          by_contra hcc
          exact hcond ⟨hpp, hcc⟩
        rw [urlunsplit_netloc_eq s n pp hn, urlunsplit_netloc_eq s n pp.dropLast hn,
          if_neg hcond,
          if_neg (show ¬ (pp.dropLast ≠ [] ∧ pp.dropLast.take 1 ≠ ['/']) from
            fun hc => hc.2 (htk.trans hsl1)),
          List.dropLast_append_of_ne_nil _ hpp]
    · have hstrip : stripTrailingSlash pp = pp := by
        simp [stripTrailingSlash, hsl]
      simp [hsl, hstrip]
  · have hstrip : stripTrailingSlash pp = pp := by
      simp [stripTrailingSlash, hlen]
    simp [hlen, hstrip]

/-- C5 counterexample: for `http://a.com/x?q=/` — whose path `/x` is not the
    root — `normalize_url` removes the final character of the *query*
    (`q=/` becomes `q=`), because the code strips the last character of the
    whole reassembled string whenever it ends in `'/'` and `len(path) > 1`;
    the claim's "query string otherwise unchanged" is violated while the path
    itself had no trailing slash to strip. -/
theorem c5_counterexample :
    urlparseE [] "http://a.com/x?q=/".toList =
      .ok ⟨"http".toList, "a.com".toList, "/x".toList, [], "q=/".toList, []⟩ ∧
    normalize_url "http://a.com/x?q=/".toList = .ok "http://a.com/x?q=".toList ∧
    urlparseE [] "http://a.com/x?q=".toList =
      .ok ⟨"http".toList, "a.com".toList, "/x".toList, [], "q=".toList, []⟩ ∧
    ("q=".toList : Str) ≠ "q=/".toList :=
  ⟨rfl, rfl, rfl, by simp⟩

/-- C5 amended: for every URL that parses with a non-empty authority, empty
    params and an *empty query*, `normalize_url` is exactly: reassemble
    scheme, authority and path, stripping one trailing `'/'` from the path
    unless the path is the root — scheme, authority and the remaining path
    segments unchanged.  (With a non-empty query the stripped character comes
    from the query instead — see the counterexample — and with an empty
    authority the `//` marker logic can rewrite the URL.) -/
theorem c5_strips_one_slash_from_path (u : Str) (p : ParseResult)
    (hp : urlparseE [] u = .ok p) (hn : p.netloc ≠ [])
    (hpar : p.params = []) (hq : p.query = []) :
    normalize_url u = .ok (urlunsplit p.scheme p.netloc
      (stripTrailingSlash p.path) [] []) := by
  simp only [normalize_url, hp, okBind, hpar, hq]
  have hup : urlunparse p.scheme p.netloc p.path [] [] [] =
      urlunsplit p.scheme p.netloc p.path [] [] := by
    simp [urlunparse]
  rw [hup]
  simp only [pure, Except.pure]
  rw [← apply_ite (fun (r : Str) => (Except.ok r : Except Str Str))]
  exact congrArg _ (unsplit_strip_of_netloc p.scheme p.netloc p.path hn)

/-- Witness for the amended C5: `http://a.com/x/` normalizes to
    `http://a.com/x`, and `http://a.com/` (root path) is untouched. -/
theorem c5_witness :
    normalize_url "http://a.com/x/".toList =
      .ok (urlunsplit "http".toList "a.com".toList
        (stripTrailingSlash "/x/".toList) [] []) ∧
    normalize_url "http://a.com/".toList =
      .ok (urlunsplit "http".toList "a.com".toList
        (stripTrailingSlash "/".toList) [] []) ∧
    urlunsplit "http".toList "a.com".toList (stripTrailingSlash "/x/".toList) [] []
      = "http://a.com/x".toList ∧
    urlunsplit "http".toList "a.com".toList (stripTrailingSlash "/".toList) [] []
      = "http://a.com/".toList :=
  ⟨c5_strips_one_slash_from_path "http://a.com/x/".toList
      ⟨"http".toList, "a.com".toList, "/x/".toList, [], [], []⟩
      rfl (by decide) rfl rfl,
    c5_strips_one_slash_from_path "http://a.com/".toList
      ⟨"http".toList, "a.com".toList, "/".toList, [], [], []⟩
      rfl (by decide) rfl rfl,
    by decide, by decide⟩

/-! ## Character and list helpers for the idempotence analysis (C4) -/

/-- `UInt32` order in terms of `toNat`. -/
theorem uint32_le_iff (a b : UInt32) : (a ≤ b) ↔ a.toNat ≤ b.toNat := by
  rw [UInt32.le_def, BitVec.le_def]
  rfl

/-- `Char.ofNat` round-trips on valid code points. -/
theorem char_toNat_ofNat_valid (m : Nat) (h : m.isValidChar) :
    (Char.ofNat m).toNat = m := by
  simp [Char.ofNat, h, Char.ofNatAux, Char.toNat, UInt32.toNat, BitVec.toNat_ofNatLt]

/-- `Char.isAlpha` in terms of `toNat` ranges. -/
theorem isAlpha_iff (c : Char) :
    c.isAlpha = true ↔ (65 ≤ c.toNat ∧ c.toNat ≤ 90) ∨ (97 ≤ c.toNat ∧ c.toNat ≤ 122) := by
  simp [Char.isAlpha, Char.isUpper, Char.isLower, uint32_le_iff, Char.toNat]
  constructor
  · rintro (⟨h1, h2⟩ | ⟨h1, h2⟩)
    · exact Or.inl ⟨h1, h2⟩
    · exact Or.inr ⟨h1, h2⟩
  · rintro (⟨h1, h2⟩ | ⟨h1, h2⟩)
    · exact Or.inl ⟨h1, h2⟩
    · exact Or.inr ⟨h1, h2⟩

/-- ASCII lower-casing is idempotent. -/
theorem toLower_toLower (c : Char) : c.toLower.toLower = c.toLower := by
  unfold Char.toLower
  by_cases h : c.toNat ≥ 65 ∧ c.toNat ≤ 90
  · rw [if_pos h]
    have hval : (c.toNat + 32).isValidChar := by
      left
      have := h.2
      omega
    rw [if_neg (by rw [char_toNat_ofNat_valid _ hval]; omega)]
  · rw [if_neg h, if_neg h]

/-- Lower-casing a letter yields a letter. -/
theorem isAlpha_toLower (c : Char) (h : c.isAlpha = true) :
    c.toLower.isAlpha = true := by
  unfold Char.toLower
  by_cases hc : c.toNat ≥ 65 ∧ c.toNat ≤ 90
  · rw [if_pos hc]
    have hval : (c.toNat + 32).isValidChar := by left; omega
    rw [isAlpha_iff, char_toNat_ofNat_valid _ hval]
    right
    omega
  · rw [if_neg hc]
    exact h

/-- Lower-casing preserves membership in `scheme_chars`. -/
theorem schemeChar_toLower (c : Char) (h : schemeChar c = true) :
    schemeChar c.toLower = true := by
  by_cases hc : c.toNat ≥ 65 ∧ c.toNat ≤ 90
  · have halpha : c.toLower.isAlpha = true := by
      apply isAlpha_toLower
      rw [isAlpha_iff]
      exact Or.inl ⟨hc.1, hc.2⟩
    simp [schemeChar, halpha]
  · have : c.toLower = c := by
      unfold Char.toLower
      rw [if_neg hc]
    rw [this]
    exact h

/-- `lowerStr` output of a non-empty string: head and scheme-character facts
    survive, and lower-casing it again is the identity. -/
theorem lowerStr_props (l : Str) (hne : l ≠ [])
    (hhead : (l.headD '0').isAlpha = true) (hall : l.all schemeChar = true) :
    lowerStr l ≠ [] ∧ ((lowerStr l).headD '0').isAlpha = true ∧
      (lowerStr l).all schemeChar = true ∧ lowerStr (lowerStr l) = lowerStr l := by
  rcases l with _ | ⟨c, t⟩
  · exact absurd rfl hne
  refine ⟨by simp [lowerStr], ?_, ?_, ?_⟩
  · simpa [lowerStr] using isAlpha_toLower c (by simpa using hhead)
  · simp only [lowerStr, List.all_eq_true] at hall ⊢
    intro x hx
    obtain ⟨y, hy, hyx⟩ := List.mem_map.mp hx
    exact hyx ▸ schemeChar_toLower y (hall y hy)
  · simp only [lowerStr, List.map_map]
    congr 1
    funext x
    exact toLower_toLower x

/-- `takeWhile` of a list all of whose members satisfy the predicate. -/
theorem takeWhile_all {p : Char → Bool} : ∀ (a : Str), (∀ c ∈ a, p c = true) →
    a.takeWhile p = a
  | [], _ => rfl
  | c :: t, h => by
    rw [List.takeWhile_cons, h c (List.mem_cons_self _ _)]
    simp only [if_true, reduceIte]
    rw [takeWhile_all t fun x hx => h x (List.mem_cons_of_mem _ hx)]

/-- `dropWhile` of a list all of whose members satisfy the predicate. -/
theorem dropWhile_all {p : Char → Bool} : ∀ (a : Str), (∀ c ∈ a, p c = true) →
    a.dropWhile p = []
  | [], _ => rfl
  | c :: t, h => by
    rw [List.dropWhile_cons, h c (List.mem_cons_self _ _)]
    simp only [if_true, reduceIte]
    exact dropWhile_all t fun x hx => h x (List.mem_cons_of_mem _ hx)

/-- `takeWhile` stops exactly at the first failing element. -/
theorem takeWhile_stop {p : Char → Bool} : ∀ (a : Str) (x : Char) (b : Str),
    (∀ c ∈ a, p c = true) → p x = false → (a ++ x :: b).takeWhile p = a
  | [], x, b, _, hx => by simp [List.takeWhile_cons, hx]
  | c :: t, x, b, h, hx => by
    rw [List.cons_append, List.takeWhile_cons, h c (List.mem_cons_self _ _)]
    simp only [if_true, reduceIte]
    rw [takeWhile_stop t x b (fun y hy => h y (List.mem_cons_of_mem _ hy)) hx]

/-- `dropWhile` keeps everything from the first failing element on. -/
theorem dropWhile_stop {p : Char → Bool} : ∀ (a : Str) (x : Char) (b : Str),
    (∀ c ∈ a, p c = true) → p x = false → (a ++ x :: b).dropWhile p = x :: b
  | [], x, b, _, hx => by simp [List.dropWhile_cons, hx]
  | c :: t, x, b, h, hx => by
    rw [List.cons_append, List.dropWhile_cons, h c (List.mem_cons_self _ _)]
    simp only [if_true, reduceIte]
    exact dropWhile_stop t x b (fun y hy => h y (List.mem_cons_of_mem _ hy)) hx

/-- `splitOnce` on a string not containing the separator. -/
theorem splitOnce_not_mem {c : Char} {l : Str} (h : c ∉ l) :
    splitOnce c l = (l, []) := by
  have hall : ∀ x ∈ l, (decide (x ≠ c)) = true :=
    fun x hx => decide_eq_true fun hxc => h (hxc ▸ hx)
  simp only [splitOnce, List.span_eq_take_drop, takeWhile_all l hall,
    dropWhile_all l hall, List.tail_nil]

/-- `splitOnce` at the first separator occurrence. -/
theorem splitOnce_stop {c : Char} {a : Str} (b : Str) (h : c ∉ a) :
    splitOnce c (a ++ c :: b) = (a, b) := by
  have hall : ∀ x ∈ a, (decide (x ≠ c)) = true :=
    fun x hx => decide_eq_true fun hxc => h (hxc ▸ hx)
  have hx : (decide (c ≠ c)) = false := by simp
  simp only [splitOnce, List.span_eq_take_drop, takeWhile_stop a c b hall hx,
    dropWhile_stop a c b hall hx, List.tail_cons]

/-- Both `splitOnce` components are built from members of the input. -/
theorem splitOnce_subset (c : Char) (l : Str) :
    (∀ x ∈ (splitOnce c l).1, x ∈ l) ∧ ∀ x ∈ (splitOnce c l).2, x ∈ l := by
  constructor
  · intro x hx
    simp only [splitOnce, List.span_eq_take_drop] at hx
    exact (List.takeWhile_sublist _).subset hx
  · intro x hx
    simp only [splitOnce, List.span_eq_take_drop] at hx
    exact ((List.tail_sublist _).trans (List.dropWhile_sublist _)).subset hx

/-- The separator never appears in `splitOnce`'s first component. -/
theorem splitOnce_fst_not_mem (c : Char) (l : Str) : c ∉ (splitOnce c l).1 := by
  intro hc
  simp only [splitOnce, List.span_eq_take_drop] at hc
  have := List.mem_takeWhile_imp hc
  simp at this

/-- A list whose one-element take is `[x]` starts with `x`. -/
theorem take_one_eq_cons {l : Str} {x : Char} (h : l.take 1 = [x]) :
    l = x :: l.tail := by
  rcases l with _ | ⟨c, t⟩
  · simp at h
  · simp at h
    rw [h]
    rfl

/-- `splitparams` only rearranges characters of its input. -/
theorem splitparams_fst_subset (x : Str) : ∀ c ∈ (splitparams x).1, c ∈ x := by
  intro c hc
  simp only [splitparams, List.span_eq_take_drop] at hc
  split_ifs at hc with h1 h2
  · rcases List.mem_append.mp hc with hc | hc
    · exact (List.take_sublist _ _).subset hc
    · have h3 := (List.takeWhile_sublist (· ≠ ';')).subset hc
      rw [List.mem_reverse] at h3
      exact List.mem_reverse.mp ((List.takeWhile_sublist _).subset h3)
  · exact hc
  · exact (List.takeWhile_sublist _).subset hc

/-- Padding does nothing to an empty or absolute path. -/
theorem pad_noop {pp : Str} (h : pp = [] ∨ pp.take 1 = ['/']) :
    (if pp ≠ [] ∧ pp.take 1 ≠ ['/'] then '/' :: pp else pp) = pp := by
  rcases h with h | h <;> simp [h]

/-- Shape of `urlunsplit` with a non-empty netloc and empty fragment. -/
theorem urlunsplit_assembled (s n pp q : Str) (hn : n ≠ []) :
    urlunsplit s n pp q [] =
      assembleU s n (if pp ≠ [] ∧ pp.take 1 ≠ ['/'] then '/' :: pp else pp) q := by
  simp only [urlunsplit, assembleU, ne_eq, hn, not_false_eq_true, true_or, if_true,
    reduceIte, List.cons_ne_self, not_true_eq_false, false_and, or_false]
  split_ifs <;> simp_all [List.append_assoc]

/-- A list with `isEmpty = false` is not nil. -/
theorem ne_nil_of_isEmpty_false {l : Str} (h : l.isEmpty = false) : l ≠ [] := by
  cases l <;> simp_all

/-- What a successful scheme detection guarantees about the pre-colon part. -/
theorem schemeDetect_elim {u : Str} (h : schemeDetect u = true) :
    (u.span (· ≠ ':')).1 ≠ [] ∧ (((u.span (· ≠ ':')).1.headD '0').isAlpha = true) ∧
      (u.span (· ≠ ':')).1.all schemeChar = true := by
  unfold schemeDetect at h
  simp only [Bool.and_eq_true, Bool.not_eq_true'] at h
  exact ⟨ne_nil_of_isEmpty_false h.1.1.2, h.1.2, h.2⟩

/-- A successful `urlsplitE` is `urlsplitCore` with balanced netloc brackets. -/
theorem urlsplitE_ok (dscheme u : Str) (res : SplitResult)
    (h : urlsplitE dscheme u = .ok res) :
    res = urlsplitCore dscheme u ∧ ('[' ∈ res.netloc ↔ ']' ∈ res.netloc) := by
  simp only [urlsplitE] at h
  split_ifs at h with hbr
  simp only [Except.ok.injEq] at h
  subst h
  refine ⟨rfl, ?_⟩
  push_neg at hbr
  exact ⟨hbr.1, hbr.2⟩

/-- Structural properties of every `urlsplitCore` result (with the empty
    default scheme): a well-formed lower-case scheme or none, a netloc free
    of `/?#`, a path free of `?#`, and a query free of `#`. -/
theorem urlsplitCore_props (u : Str) :
    ((urlsplitCore [] u).scheme = [] ∨
      ((urlsplitCore [] u).scheme ≠ [] ∧
        (((urlsplitCore [] u).scheme.headD '0').isAlpha = true) ∧
        (urlsplitCore [] u).scheme.all schemeChar = true ∧
        lowerStr (urlsplitCore [] u).scheme = (urlsplitCore [] u).scheme)) ∧
    (∀ c ∈ (urlsplitCore [] u).netloc, ¬(c = '/' ∨ c = '?' ∨ c = '#')) ∧
    '?' ∉ (urlsplitCore [] u).path ∧ '#' ∉ (urlsplitCore [] u).path ∧
    '#' ∉ (urlsplitCore [] u).query := by
  refine ⟨?_, ?_, ?_, ?_, ?_⟩
  · by_cases hd : schemeDetect u
    · simp only [urlsplitCore, hd, if_true, reduceIte]
      obtain ⟨h1, hhead, hall⟩ := schemeDetect_elim hd
      exact Or.inr (lowerStr_props _ h1 hhead hall)
    · simp [urlsplitCore, hd]
  · intro c hc
    simp only [urlsplitCore] at hc
    split_ifs at hc
    all_goals
      first
      | (simp only [List.span_eq_take_drop] at hc
         have h2 := List.mem_takeWhile_imp hc
         simp only [Bool.and_eq_true, Bool.not_eq_true', Bool.or_eq_false_iff,
           decide_eq_false_iff_not] at h2
         tauto)
      | simp at hc
  · exact splitOnce_fst_not_mem '?' _
  · intro hc
    simp only [urlsplitCore] at hc
    have h1 := (splitOnce_subset '?' _).1 _ hc
    exact splitOnce_fst_not_mem '#' _ h1
  · intro hc
    simp only [urlsplitCore] at hc
    have h1 := (splitOnce_subset '?' _).2 _ hc
    exact splitOnce_fst_not_mem '#' _ h1

/-- `span` of a list all of whose members satisfy the predicate. -/
theorem span_all {p : Char → Bool} (a : Str) (h : ∀ c ∈ a, p c = true) :
    List.span p a = (a, []) := by
  rw [List.span_eq_take_drop, takeWhile_all a h, dropWhile_all a h]

/-- `span` stops exactly at the first failing element. -/
theorem span_stop {p : Char → Bool} (a : Str) (x : Char) (b : Str)
    (h : ∀ c ∈ a, p c = true) (hx : p x = false) :
    List.span p (a ++ x :: b) = (a, x :: b) := by
  rw [List.span_eq_take_drop, takeWhile_stop a x b h hx, dropWhile_stop a x b h hx]

/-- Scheme characters are never the colon. -/
theorem schemeChar_ne_colon {c : Char} (h : schemeChar c = true) : c ≠ ':' := by
  intro heq
  subst heq
  revert h
  decide

/-- No scheme is detected on a string whose first character is not a letter. -/
theorem schemeDetect_cons_false (x : Char) (t : Str) (hx : x.isAlpha = false) :
    schemeDetect (x :: t) = false := by
  unfold schemeDetect
  by_cases hc : x = ':'
  · subst hc
    simp [List.span_eq_take_drop, List.takeWhile_cons]
  · simp only [List.span_eq_take_drop, List.takeWhile_cons, decide_eq_true_eq,
      ne_eq, hc, not_false_eq_true, if_true, reduceIte]
    simp [hx]

/-- The scheme span of a well-formed scheme followed by a colon. -/
theorem span_scheme (s t : Str) (hall : s.all schemeChar = true) :
    List.span (fun x => x ≠ ':') (s ++ ':' :: t) = (s, ':' :: t) := by
  apply span_stop
  · intro c hc
    rw [List.all_eq_true] at hall
    exact decide_eq_true (schemeChar_ne_colon (hall c hc))
  · simp

/-- Scheme detection succeeds on a well-formed scheme followed by a colon. -/
theorem schemeDetect_append_true (s t : Str) (hne : s ≠ [])
    (hhead : (s.headD '0').isAlpha = true) (hall : s.all schemeChar = true) :
    schemeDetect (s ++ ':' :: t) = true := by
  unfold schemeDetect
  rw [span_scheme s t hall]
  rcases s with _ | ⟨c, cs⟩
  · exact absurd rfl hne
  · simp only [List.headD_cons] at hhead
    simp [hhead, hall]

/-- The netloc span of `netloc ++ path ++ query-part` stops exactly after the
    netloc. -/
theorem span_netloc (n pp q : Str)
    (hnc : ∀ c ∈ n, ¬(c = '/' ∨ c = '?' ∨ c = '#'))
    (hshape : pp = [] ∨ pp.take 1 = ['/']) :
    List.span (fun c => !(c = '/' || c = '?' || c = '#'))
        (n ++ (pp ++ (if q ≠ [] then '?' :: q else [])))
      = (n, pp ++ (if q ≠ [] then '?' :: q else [])) := by
  have hn : ∀ c ∈ n, (fun c => !(c = '/' || c = '?' || c = '#')) c = true := by
    intro c hc
    have := hnc c hc
    simp only [Bool.not_eq_true', Bool.or_eq_false_iff, decide_eq_false_iff_not]
    tauto
  rcases hshape with hpp | hpp
  · subst hpp
    by_cases hq : q = []
    · subst hq
      simpa using span_all n hn
    · simp only [hq, ne_eq, not_false_eq_true, if_true, reduceIte, List.nil_append]
      exact span_stop n '?' q hn (by decide)
  · rw [take_one_eq_cons hpp, List.cons_append]
    exact span_stop n '/' _ hn (by decide)

/-- Parsing the canonical assembled URL recovers its components exactly. -/
theorem urlsplitCore_assembled (s n pp q : Str) (_hn : n ≠ [])
    (hs : s = [] ∨ (s ≠ [] ∧ ((s.headD '0').isAlpha = true) ∧
      s.all schemeChar = true ∧ lowerStr s = s))
    (hnc : ∀ c ∈ n, ¬(c = '/' ∨ c = '?' ∨ c = '#'))
    (hshape : pp = [] ∨ pp.take 1 = ['/'])
    (hpq : '?' ∉ pp) (hpf : '#' ∉ pp) (hqf : '#' ∉ q) :
    urlsplitCore [] (assembleU s n pp q) = ⟨s, n, pp, q, []⟩ := by
  have hfrag : splitOnce '#' (pp ++ (if q ≠ [] then '?' :: q else []))
      = (pp ++ (if q ≠ [] then '?' :: q else []), []) := by
    apply splitOnce_not_mem
    intro hmem
    rcases List.mem_append.mp hmem with hm | hm
    · exact hpf hm
    · by_cases hq : q = [] <;> simp [hq] at hm
      exact hqf hm
  have hquery : splitOnce '?' (pp ++ (if q ≠ [] then '?' :: q else [])) = (pp, q) := by
    by_cases hq : q = []
    · subst hq
      simpa using splitOnce_not_mem hpq
    · simp only [hq, ne_eq, not_false_eq_true, if_true, reduceIte]
      exact splitOnce_stop q hpq
  rcases hs with hse | ⟨hsne, hhead, hall, hlow⟩
  · subst hse
    have hX : assembleU [] n pp q =
        '/' :: '/' :: (n ++ (pp ++ (if q ≠ [] then '?' :: q else []))) := by
      simp [assembleU, List.append_assoc]
    rw [hX]
    have hdet := schemeDetect_cons_false '/'
      ('/' :: (n ++ (pp ++ (if q ≠ [] then '?' :: q else [])))) (by decide)
    simp only [urlsplitCore, hdet, Bool.false_eq_true, if_false, reduceIte]
    simp only [List.take_succ_cons, List.take_zero, List.drop_succ_cons,
      List.drop_zero, if_true, reduceIte]
    simp only [span_netloc n pp q hnc hshape, hfrag, hquery]
  · have hX : assembleU s n pp q =
        s ++ ':' :: ('/' :: '/' ::
          (n ++ (pp ++ (if q ≠ [] then '?' :: q else [])))) := by
      simp [assembleU, List.append_assoc, hsne]
    rw [hX]
    have hdet := schemeDetect_append_true s
      ('/' :: '/' :: (n ++ (pp ++ (if q ≠ [] then '?' :: q else []))))
      hsne hhead hall
    simp only [urlsplitCore, hdet, if_true, reduceIte,
      span_scheme s _ hall, List.tail_cons]
    simp only [List.take_succ_cons, List.take_zero, List.drop_succ_cons,
      List.drop_zero, if_true, reduceIte]
    simp only [span_netloc n pp q hnc hshape, hfrag, hquery, hlow]

/-- `urlsplitE` on the canonical assembled URL succeeds with its components
    when the netloc's brackets are balanced. -/
theorem urlsplitE_assembled (s n pp q : Str) (hn : n ≠ [])
    (hs : s = [] ∨ (s ≠ [] ∧ ((s.headD '0').isAlpha = true) ∧
      s.all schemeChar = true ∧ lowerStr s = s))
    (hnc : ∀ c ∈ n, ¬(c = '/' ∨ c = '?' ∨ c = '#'))
    (hbal : '[' ∈ n ↔ ']' ∈ n)
    (hshape : pp = [] ∨ pp.take 1 = ['/'])
    (hpq : '?' ∉ pp) (hpf : '#' ∉ pp) (hqf : '#' ∉ q) :
    urlsplitE [] (assembleU s n pp q) = .ok ⟨s, n, pp, q, []⟩ := by
  have hcore := urlsplitCore_assembled s n pp q hn hs hnc hshape hpq hpf hqf
  simp only [urlsplitE, hcore]
  rw [if_neg]
  intro hbad
  rcases hbad with ⟨h1, h2⟩ | ⟨h1, h2⟩
  · exact h2 (hbal.mp h1)
  · exact h2 (hbal.mpr h1)

/-- C4 counterexample: `normalize_url` is *not* idempotent.  For
    `http://a.com/x//` one application strips a single trailing slash, giving
    `http://a.com/x/`, and a second application strips another, giving
    `http://a.com/x` — so `normalize(normalize(u)) ≠ normalize(u)`. -/
theorem c4_counterexample :
    normalize_url "http://a.com/x//".toList = .ok "http://a.com/x/".toList ∧
    normalize_url "http://a.com/x/".toList = .ok "http://a.com/x".toList ∧
    ("http://a.com/x".toList : Str) ≠ "http://a.com/x/".toList :=
  ⟨rfl, rfl, by simp⟩

/-- C4 amended: `normalize_url` is idempotent on every URL that parses with a
    non-empty authority, empty params and a semicolon-free path, provided its
    normalized form does not end in `'/'` or `'?'`.  Each excluded case is a
    genuine further counterexample family: a normalized form ending in `'/'`
    is stripped again (the counterexample), one ending in `'?'` (from a query
    `"/"`) loses its bare `'?'` on re-parsing, a trailing semicolon region is
    dropped as empty params, and with an empty authority the `//`-marker
    logic collapses leading slashes (`normalize('/////x') = '///x'`, but
    `normalize('///x') = '/x'`). -/
theorem c4_idempotent_with_authority (u r : Str) (p : ParseResult)
    (hp : urlparseE [] u = .ok p) (hnet : p.netloc ≠ [])
    (hpar : p.params = []) (hsemi : ';' ∉ p.path)
    (hr : normalize_url u = .ok r)
    (h1 : r.getLast? ≠ some '/') (h2 : r.getLast? ≠ some '?') :
    normalize_url r = .ok r := by
  have hp0 := hp
  rcases hspl : urlsplitE [] u with e | res
  · simp [urlparseE, hspl] at hp
  obtain ⟨hres, hbal⟩ := urlsplitE_ok [] u res hspl
  have hprops := urlsplitCore_props u
  rw [← hres] at hprops
  obtain ⟨hsch, hnlc, hpq0, hpf0, hqf0⟩ := hprops
  simp only [urlparseE, hspl, okBind, pure, Except.pure, Except.ok.injEq] at hp
  subst hp
  set t := if res.scheme ∈ uses_params ∧ ';' ∈ res.path
      then splitparams res.path else (res.path, []) with ht
  have hpar' : t.2 = [] := hpar
  have hsemi' : ';' ∉ t.1 := hsemi
  have hPq : '?' ∉ t.1 := by
    rw [ht]
    split_ifs with hg
    · exact fun hx => hpq0 (splitparams_fst_subset _ _ hx)
    · exact hpq0
  have hPf : '#' ∉ t.1 := by
    rw [ht]
    split_ifs with hg
    · exact fun hx => hpf0 (splitparams_fst_subset _ _ hx)
    · exact hpf0
  have hPs : ';' ∉ t.1 := hsemi'
  have hN : res.netloc ≠ [] := hnet
  simp only [normalize_url, hp0, okBind] at hr
  have hup : urlunparse res.scheme res.netloc t.1 t.2 res.query [] =
      urlunsplit res.scheme res.netloc t.1 res.query [] := by
    simp [urlunparse, hpar']
  rw [hup, urlunsplit_assembled res.scheme res.netloc t.1 res.query hN] at hr
  set pp₂ := if t.1 ≠ [] ∧ t.1.take 1 ≠ ['/'] then '/' :: t.1 else t.1 with hpp₂
  have hshape₂ : pp₂ = [] ∨ pp₂.take 1 = ['/'] := by
    rw [hpp₂]
    split_ifs with hc
    · right; rfl
    · rcases not_and_or.mp hc with hc | hc
      · left; exact not_not.mp hc
      · right; exact not_not.mp hc
  have hq₂ : '?' ∉ pp₂ := by
    rw [hpp₂]
    split_ifs
    · simp only [List.mem_cons, not_or]
      exact ⟨by decide, hPq⟩
    · exact hPq
  have hf₂ : '#' ∉ pp₂ := by
    rw [hpp₂]
    split_ifs
    · simp only [List.mem_cons, not_or]
      exact ⟨by decide, hPf⟩
    · exact hPf
  have hs₂ : ';' ∉ pp₂ := by
    rw [hpp₂]
    split_ifs
    · simp only [List.mem_cons, not_or]
      exact ⟨by decide, hPs⟩
    · exact hPs
  have hmain : ∃ PP QQ, r = assembleU res.scheme res.netloc PP QQ ∧
      (PP = [] ∨ PP.take 1 = ['/']) ∧ '?' ∉ PP ∧ '#' ∉ PP ∧ ';' ∉ PP ∧ '#' ∉ QQ := by
    by_cases hstrip : (assembleU res.scheme res.netloc pp₂ res.query).getLast?
        = some '/' ∧ t.1.length > 1
    · rw [if_pos hstrip] at hr
      simp only [pure, Except.pure, Except.ok.injEq] at hr
      have hlen₂ : 2 ≤ pp₂.length := by
        rw [hpp₂]
        have := hstrip.2
        split_ifs <;> simp <;> omega
      have hne₂ : pp₂ ≠ [] := by
        intro hcon
        rw [hcon] at hlen₂
        simp at hlen₂
      by_cases hq : res.query = []
      · refine ⟨pp₂.dropLast, [], ?_, ?_, ?_, ?_, ?_, by simp⟩
        · rw [← hr]
          simp only [assembleU, hq, ne_eq, not_true_eq_false, if_false, reduceIte,
            List.append_nil]
          rw [List.dropLast_append_of_ne_nil _ hne₂]
        · right
          rw [take_one_dropLast hlen₂]
          rcases hshape₂ with hc | hc
          · exact absurd hc hne₂
          · exact hc
        · exact fun hx => hq₂ ((List.dropLast_prefix pp₂).subset hx)
        · exact fun hx => hf₂ ((List.dropLast_prefix pp₂).subset hx)
        · exact fun hx => hs₂ ((List.dropLast_prefix pp₂).subset hx)
      · have hQd : ('?' :: res.query).dropLast = '?' :: res.query.dropLast := by
          rw [show ('?' :: res.query) = ['?'] ++ res.query from rfl,
            List.dropLast_append_of_ne_nil _ hq]
          rfl
        have hrr : r = ((if res.scheme ≠ [] then res.scheme ++ [':'] else [])
            ++ ['/', '/'] ++ res.netloc ++ pp₂) ++ '?' :: res.query.dropLast := by
          rw [← hr]
          simp only [assembleU, hq, ne_eq, not_false_eq_true, if_true, reduceIte]
          rw [List.dropLast_append_of_ne_nil _ (List.cons_ne_nil '?' res.query), hQd]
        by_cases hqd : res.query.dropLast = []
        · exfalso
          apply h2
          rw [hrr, hqd, List.getLast?_append_of_ne_nil _ (List.cons_ne_nil '?' [])]
          rfl
        · refine ⟨pp₂, res.query.dropLast, ?_, hshape₂, hq₂, hf₂, hs₂, ?_⟩
          · rw [hrr]
            simp [assembleU, hqd]
          · exact fun hx => hqf0 ((List.dropLast_prefix res.query).subset hx)
    · rw [if_neg hstrip] at hr
      simp only [pure, Except.pure, Except.ok.injEq] at hr
      exact ⟨pp₂, res.query, hr.symm, hshape₂, hq₂, hf₂, hs₂, hqf0⟩
  obtain ⟨PP, QQ, hrEq, hshP, hqP, hfP, hsP, hfQ⟩ := hmain
  have E1 := urlsplitE_assembled res.scheme res.netloc PP QQ hN hsch hnlc hbal
    hshP hqP hfP hfQ
  rw [← hrEq] at E1
  have E2 : urlparseE [] r = .ok ⟨res.scheme, res.netloc, PP, [], QQ, []⟩ := by
    have hng : ¬ (res.scheme ∈ uses_params ∧ ';' ∈ PP) := fun hc => hsP hc.2
    simp [urlparseE, E1, hng, pure, Except.pure]
  simp only [normalize_url, E2, okBind]
  have hnorm : urlunparse res.scheme res.netloc PP [] QQ [] = r := by
    rw [show urlunparse res.scheme res.netloc PP [] QQ []
        = urlunsplit res.scheme res.netloc PP QQ [] by simp [urlunparse],
      urlunsplit_assembled res.scheme res.netloc PP QQ hN, pad_noop hshP, ← hrEq]
  rw [hnorm, if_neg (fun hc => h1 hc.1)]
  rfl

/-- Witness for the amended C4: `http://a.com/x` (already normalized, with
    authority, no params, no semicolons, ending in a letter) is a fixed point
    of `normalize_url`. -/
theorem c4_witness :
    normalize_url "http://a.com/x".toList = .ok "http://a.com/x".toList :=
  c4_idempotent_with_authority "http://a.com/x/".toList "http://a.com/x".toList
    ⟨"http".toList, "a.com".toList, "/x/".toList, [], [], []⟩
    rfl (by decide) rfl (by decide) rfl (by decide) (by decide)

/-- Witness for C9: `.JPG` (upper case) on an otherwise valid same-domain
    http URL is rejected. -/
theorem c9_witness :
    is_valid_url false "http://a.com/photo.JPG".toList "a.com".toList = false :=
  c9_excluded_extension false "http://a.com/photo.JPG".toList "a.com".toList
    ⟨"http".toList, "a.com".toList, "/photo.JPG".toList, [], [], []⟩
    ".jpg".toList rfl (by decide) (by decide)

/-! ## Error containment (C3): the raise behaviour of re-splitting -/

/-- Only the scheme field of `urlsplitCore` depends on the default scheme. -/
theorem urlsplitCore_netloc_dscheme (d u : Str) :
    (urlsplitCore d u).netloc = (urlsplitCore [] u).netloc := by
  unfold urlsplitCore
  by_cases h : schemeDetect u <;> simp [h]

/-- Whether `urlsplitE` raises does not depend on the default scheme. -/
theorem urlsplitE_ok_dscheme {d u : Str} (h : ∃ r, urlsplitE d u = .ok r)
    (d' : Str) : ∃ r, urlsplitE d' u = .ok r := by
  obtain ⟨r, hr⟩ := h
  have hcond : ¬(('[' ∈ (urlsplitCore d u).netloc ∧ ']' ∉ (urlsplitCore d u).netloc) ∨
      (']' ∈ (urlsplitCore d u).netloc ∧ '[' ∉ (urlsplitCore d u).netloc)) := by
    intro hc
    simp only [urlsplitE, if_pos hc] at hr
    exact Except.noConfusion hr
  have hcond' : ¬(('[' ∈ (urlsplitCore d' u).netloc ∧
        ']' ∉ (urlsplitCore d' u).netloc) ∨
      (']' ∈ (urlsplitCore d' u).netloc ∧ '[' ∉ (urlsplitCore d' u).netloc)) := by
    rw [urlsplitCore_netloc_dscheme d' u, ← urlsplitCore_netloc_dscheme d u]
    exact hcond
  exact ⟨urlsplitCore d' u, by simp only [urlsplitE, if_neg hcond']⟩

/-- `urlparse` succeeds exactly when `urlsplit` does, and it copies the
    scheme and netloc fields unchanged. -/
theorem urlparseE_fields {d u : Str} {p : ParseResult}
    (h : urlparseE d u = .ok p) :
    ∃ r, urlsplitE d u = .ok r ∧ p.scheme = r.scheme ∧ p.netloc = r.netloc := by
  rcases hs : urlsplitE d u with e | r
  · simp [urlparseE, hs] at h
  · simp only [urlparseE, hs, okBind, pure, Except.pure, Except.ok.injEq] at h
    exact ⟨r, rfl, by rw [← h], by rw [← h]⟩

/-- A URL that re-parses also re-normalizes: `normalize_url` is `urlparse`
    followed by total reassembly. -/
theorem normalize_ok_of_parse {u : Str} {p : ParseResult}
    (h : urlparseE [] u = .ok p) : ∃ n, normalize_url u = .ok n := by
  simp only [normalize_url, h, okBind]
  split_ifs <;> exact ⟨_, rfl⟩

/-- The netloc span of `netloc ++ tail` is the netloc whenever the tail is
    empty or starts with a stop character. -/
theorem span_fst_stop (n tail : Str)
    (hnc : ∀ c ∈ n, ¬(c = '/' ∨ c = '?' ∨ c = '#'))
    (ht : tail = [] ∨ ∃ c t, tail = c :: t ∧ (c = '/' ∨ c = '?' ∨ c = '#')) :
    List.span (fun c => !(c = '/' || c = '?' || c = '#')) (n ++ tail) = (n, tail) := by
  have hn' : ∀ c ∈ n, (fun c => !(c = '/' || c = '?' || c = '#')) c = true := by
    intro c hc
    have := hnc c hc
    simp only [Bool.not_eq_true', Bool.or_eq_false_iff, decide_eq_false_iff_not]
    tauto
  rcases ht with rfl | ⟨c, t, rfl, hc⟩
  · simpa using span_all n hn'
  · refine span_stop n c t hn' ?_
    rcases hc with rfl | rfl | rfl <;> rfl

/-- Re-splitting a string of the shape `scheme? ++ // ++ netloc ++ tail`
    recovers the netloc exactly, for any tail that is empty or starts with a
    stop character. -/
theorem urlsplitCore_marker_netloc (s n tail : Str)
    (hs : s = [] ∨ (s ≠ [] ∧ ((s.headD '0').isAlpha = true) ∧
      s.all schemeChar = true))
    (hnc : ∀ c ∈ n, ¬(c = '/' ∨ c = '?' ∨ c = '#'))
    (ht : tail = [] ∨ ∃ c t, tail = c :: t ∧ (c = '/' ∨ c = '?' ∨ c = '#')) :
    (urlsplitCore []
      ((if s ≠ [] then s ++ [':'] else []) ++ '/' :: '/' :: (n ++ tail))).netloc
      = n := by
  rcases hs with hse | ⟨hsne, hhead, hall⟩
  · subst hse
    simp only [ne_eq, not_true_eq_false, if_false, reduceIte, List.nil_append]
    have hdet := schemeDetect_cons_false '/' ('/' :: (n ++ tail)) (by decide)
    simp only [urlsplitCore, hdet, Bool.false_eq_true, if_false, reduceIte]
    simp only [List.take_succ_cons, List.take_zero, List.drop_succ_cons,
      List.drop_zero, if_true, reduceIte]
    rw [span_fst_stop n tail hnc ht]
  · simp only [ne_eq, hsne, not_false_eq_true, if_true, reduceIte]
    have hX : (s ++ [':']) ++ '/' :: '/' :: (n ++ tail)
        = s ++ ':' :: ('/' :: '/' :: (n ++ tail)) := by
      simp [List.append_assoc]
    rw [hX]
    have hdet := schemeDetect_append_true s ('/' :: '/' :: (n ++ tail)) hsne hhead hall
    simp only [urlsplitCore, hdet, if_true, reduceIte,
      span_scheme s _ hall, List.tail_cons]
    simp only [List.take_succ_cons, List.take_zero, List.drop_succ_cons,
      List.drop_zero, if_true, reduceIte]
    rw [span_fst_stop n tail hnc ht]

/-- Re-splitting an `urlunsplit` result with a non-empty netloc recovers that
    netloc, whatever the path, query and fragment: the emitted `//` marker
    and the `/`-padding of a relative path pin the netloc region down. -/
theorem urlunsplit_core_netloc (s n path q f : Str) (hn : n ≠ [])
    (hs : s = [] ∨ (s ≠ [] ∧ ((s.headD '0').isAlpha = true) ∧
      s.all schemeChar = true))
    (hnc : ∀ c ∈ n, ¬(c = '/' ∨ c = '?' ∨ c = '#')) :
    (urlsplitCore [] (urlunsplit s n path q f)).netloc = n := by
  have hout : urlunsplit s n path q f =
      (if s ≠ [] then s ++ [':'] else []) ++ '/' :: '/' ::
        (n ++ ((if path ≠ [] ∧ path.take 1 ≠ ['/'] then '/' :: path else path)
          ++ ((if q ≠ [] then '?' :: q else [])
            ++ (if f ≠ [] then '#' :: f else [])))) := by
    simp only [urlunsplit, hn, ne_eq, not_false_eq_true, true_or, if_true, reduceIte]
    split_ifs <;> simp_all [List.append_assoc]
  rw [hout]
  refine urlsplitCore_marker_netloc s n _ hs hnc ?_
  by_cases hp0 : path = []
  · simp only [hp0, ne_eq, not_true_eq_false, false_and, if_false, reduceIte,
      List.nil_append]
    by_cases hq0 : q = []
    · by_cases hf0 : f = []
      · simp [hq0, hf0]
      · exact Or.inr ⟨'#', f, by simp [hq0, hf0], by simp⟩
    · exact Or.inr ⟨'?', q ++ (if f ≠ [] then '#' :: f else []), by simp [hq0], by simp⟩
  · by_cases hp1 : path.take 1 = ['/']
    · refine Or.inr ⟨'/', path.tail ++ ((if q ≠ [] then '?' :: q else [])
        ++ (if f ≠ [] then '#' :: f else [])), ?_, by simp⟩
      rw [if_neg (by simp [hp1]), take_one_eq_cons hp1]
      simp
    · refine Or.inr ⟨'/', path ++ ((if q ≠ [] then '?' :: q else [])
        ++ (if f ≠ [] then '#' :: f else [])), ?_, by simp⟩
      rw [if_pos ⟨hp0, hp1⟩]
      simp

/-- An `urlunsplit` result with a non-empty, bracket-balanced netloc always
    re-splits without raising. -/
theorem urlunsplit_splitE_ok (s n path q f : Str) (hn : n ≠ [])
    (hs : s = [] ∨ (s ≠ [] ∧ ((s.headD '0').isAlpha = true) ∧
      s.all schemeChar = true))
    (hnc : ∀ c ∈ n, ¬(c = '/' ∨ c = '?' ∨ c = '#'))
    (hbal : '[' ∈ n ↔ ']' ∈ n) :
    ∃ r, urlsplitE [] (urlunsplit s n path q f) = .ok r := by
  have hnl := urlunsplit_core_netloc s n path q f hn hs hnc
  have hcond : ¬(('[' ∈ (urlsplitCore [] (urlunsplit s n path q f)).netloc ∧
        ']' ∉ (urlsplitCore [] (urlunsplit s n path q f)).netloc) ∨
      (']' ∈ (urlsplitCore [] (urlunsplit s n path q f)).netloc ∧
        '[' ∉ (urlsplitCore [] (urlunsplit s n path q f)).netloc)) := by
    rw [hnl]
    intro hbad
    rcases hbad with ⟨h1, h2⟩ | ⟨h1, h2⟩
    · exact h2 (hbal.mp h1)
    · exact h2 (hbal.mpr h1)
  exact ⟨urlsplitCore [] (urlunsplit s n path q f),
    by simp only [urlsplitE, if_neg hcond]⟩

/-- An `urlunparse` result with a non-empty, bracket-balanced netloc always
    re-parses without raising. -/
theorem urlunparse_parses (s n pth prm q f : Str) (hn : n ≠ [])
    (hs : s = [] ∨ (s ≠ [] ∧ ((s.headD '0').isAlpha = true) ∧
      s.all schemeChar = true))
    (hnc : ∀ c ∈ n, ¬(c = '/' ∨ c = '?' ∨ c = '#'))
    (hbal : '[' ∈ n ↔ ']' ∈ n) :
    ∃ p, urlparseE [] (urlunparse s n pth prm q f) = .ok p := by
  obtain ⟨r, hr⟩ := urlunsplit_splitE_ok s n
    (if prm ≠ [] then pth ++ ';' :: prm else pth) q f hn hs hnc hbal
  exact ⟨_, by simp only [urlparseE, urlunparse, hr, okBind]; rfl⟩

/-- Every scheme that may be joined relatively also uses a netloc, so a
    relative join always inherits the base's netloc. -/
theorem uses_relative_subset_netloc : ∀ s ∈ uses_relative, s ∈ uses_netloc := by
  decide

/-- `urljoin` never raises when the base parses and the url splits. -/
theorem urljoin_ok_of_parses (u l : Str) (bp : ParseResult)
    (hb : urlparseE [] u = .ok bp) (hl : ∃ r, urlsplitE [] l = .ok r) :
    ∃ a, urljoin u l = .ok a := by
  by_cases hu0 : u = []
  · exact ⟨l, by simp [urljoin, hu0]⟩
  by_cases hl0 : l = []
  · exact ⟨u, by simp [urljoin, hu0, hl0]⟩
  obtain ⟨r2, hr2⟩ := urlsplitE_ok_dscheme hl bp.scheme
  obtain ⟨p2, hp2⟩ : ∃ p, urlparseE bp.scheme l = .ok p :=
    ⟨_, by simp only [urlparseE, hr2, okBind]; rfl⟩
  simp only [urljoin, hu0, hl0, if_false, reduceIte, hb, okBind, hp2]
  split_ifs <;> exact ⟨_, rfl⟩

/-- The output of a successful `urljoin` from a base with a non-empty
    authority always re-parses: it is either the already-parsed input url or
    an `urlunparse` whose netloc is the base's or the url's parsed netloc. -/
theorem urljoin_result_parses (u l a : Str) (bp : ParseResult)
    (hb : urlparseE [] u = .ok bp) (hbn : bp.netloc ≠ [])
    (hj : urljoin u l = .ok a) :
    ∃ p, urlparseE [] a = .ok p := by
  obtain ⟨ru, hru, hbs, hbnl⟩ := urlparseE_fields hb
  obtain ⟨hrcore, hrbal⟩ := urlsplitE_ok [] u ru hru
  have hprops := urlsplitCore_props u
  rw [← hrcore] at hprops
  have hswf : bp.scheme = [] ∨ (bp.scheme ≠ [] ∧
      ((bp.scheme.headD '0').isAlpha = true) ∧ bp.scheme.all schemeChar = true) := by
    rw [hbs]
    rcases hprops.1 with h | ⟨h1, h2, h3, _⟩
    · exact Or.inl h
    · exact Or.inr ⟨h1, h2, h3⟩
  have hclean : ∀ c ∈ bp.netloc, ¬(c = '/' ∨ c = '?' ∨ c = '#') := by
    rw [hbnl]
    exact hprops.2.1
  have hbal : '[' ∈ bp.netloc ↔ ']' ∈ bp.netloc := by
    rw [hbnl]
    exact hrbal
  by_cases hu0 : u = []
  · exfalso
    subst hu0
    rw [show urlparseE ([] : Str) ([] : Str) = .ok ⟨[], [], [], [], [], []⟩ from rfl]
      at hb
    simp only [Except.ok.injEq] at hb
    exact hbn (by rw [← hb])
  by_cases hl0 : l = []
  · simp only [urljoin, hu0, hl0, if_false, reduceIte, if_true,
      Except.ok.injEq] at hj
    exact ⟨bp, by rw [← hj]; exact hb⟩
  simp only [urljoin, hu0, hl0, if_false, reduceIte, hb, okBind] at hj
  rcases hup : urlparseE bp.scheme l with e | up
  · rw [hup] at hj
    simp at hj
  rw [hup, okBind] at hj
  obtain ⟨rl, hrl, hups, hupn⟩ := urlparseE_fields hup
  obtain ⟨hrlcore, hrlbal⟩ := urlsplitE_ok bp.scheme l rl hrl
  have hupclean : ∀ c ∈ up.netloc, ¬(c = '/' ∨ c = '?' ∨ c = '#') := by
    rw [hupn, hrlcore, urlsplitCore_netloc_dscheme]
    exact (urlsplitCore_props l).2.1
  have hupbal : '[' ∈ up.netloc ↔ ']' ∈ up.netloc := by
    rw [hupn]
    exact hrlbal
  by_cases h1 : up.scheme ≠ bp.scheme ∨ up.scheme ∉ uses_relative
  · rw [if_pos h1] at hj
    simp only [pure, Except.pure, Except.ok.injEq] at hj
    subst hj
    obtain ⟨r0, hr0⟩ := urlsplitE_ok_dscheme ⟨rl, hrl⟩ []
    exact ⟨_, by simp only [urlparseE, hr0, okBind]; rfl⟩
  rw [if_neg h1] at hj
  push_neg at h1
  obtain ⟨hseq, hsrel⟩ := h1
  have hupswf : up.scheme = [] ∨ (up.scheme ≠ [] ∧
      ((up.scheme.headD '0').isAlpha = true) ∧ up.scheme.all schemeChar = true) := by
    rw [hseq]
    exact hswf
  have hnetuse : up.scheme ∈ uses_netloc := uses_relative_subset_netloc _ hsrel
  by_cases h2 : up.scheme ∈ uses_netloc ∧ up.netloc ≠ []
  · rw [if_pos h2] at hj
    simp only [pure, Except.pure, Except.ok.injEq] at hj
    subst hj
    exact urlunparse_parses up.scheme up.netloc up.path up.params up.query up.fragment
      h2.2 hupswf hupclean hupbal
  rw [if_neg h2] at hj
  simp only [hnetuse, if_true, reduceIte] at hj
  by_cases h3 : up.path = [] ∧ up.params = []
  · rw [if_pos h3] at hj
    simp only [pure, Except.pure, Except.ok.injEq] at hj
    subst hj
    exact urlunparse_parses _ _ _ _ _ _ hbn hupswf hclean hbal
  · rw [if_neg h3] at hj
    simp only [pure, Except.pure, Except.ok.injEq] at hj
    subst hj
    exact urlunparse_parses _ _ _ _ _ _ hbn hupswf hclean hbal

/-- Every link surviving `_extract_links` came from a successful join: hrefs
    whose `urljoin` raises never appear (the exception ends collection). -/
theorem extract_links_mem_join (base : Str) :
    ∀ (hrefs : List Str) (l : Str), l ∈ extract_links base hrefs →
      ∃ h, urljoin base h = .ok l
  | [], l, hl => absurd hl (List.not_mem_nil l)
  | href :: rest, l, hl => by
    simp only [extract_links] at hl
    split_ifs at hl with hskip
    · exact extract_links_mem_join base rest l hl
    · rcases hju : urljoin base href with e | a
      · simp only [hju] at hl
        exact absurd hl (List.not_mem_nil l)
      · simp only [hju] at hl
        rcases List.mem_cons.mp hl with rfl | hmem
        · exact ⟨href, hju⟩
        · exact extract_links_mem_join base rest l hmem

/-- Links produced by `_extract_links` at a page URL with a non-empty
    authority always re-join and re-normalize without raising in the crawl
    loop. -/
theorem extract_links_safe (u : Str) (bp : ParseResult)
    (hb : urlparseE [] u = .ok bp) (hbn : bp.netloc ≠ [])
    (hrefs : List Str) (l : Str) (hl : l ∈ extract_links u hrefs) :
    ∃ n a, urljoin u l = .ok a ∧ normalize_url a = .ok n := by
  obtain ⟨h, hj⟩ := extract_links_mem_join u hrefs l hl
  obtain ⟨pl, hpl⟩ := urljoin_result_parses u h l bp hb hbn hj
  obtain ⟨rl0, hrl0, _, _⟩ := urlparseE_fields hpl
  obtain ⟨a, hja⟩ := urljoin_ok_of_parses u l bp hb ⟨rl0, hrl0⟩
  obtain ⟨pa, hpa⟩ := urljoin_result_parses u l a bp hb hbn hja
  obtain ⟨n, hn⟩ := normalize_ok_of_parse hpa
  exact ⟨n, a, hja, hn⟩

/-- Link lists whose every member joins and normalizes cleanly always enqueue
    without error. -/
theorem enqueueLinks_ok (ae : Bool) (base : Str) (visited : List Str)
    (u : Str) (d : Nat) (links : List Str)
    (hl : ∀ l ∈ links, ∃ n a, urljoin u l = .ok a ∧ normalize_url a = .ok n) :
    ∃ entries, enqueueLinks ae base visited u d links = .ok entries := by
  induction links with
  | nil => exact ⟨[], rfl⟩
  | cons link rest ih =>
    obtain ⟨n, a, hj, hn⟩ := hl link (List.mem_cons_self _ _)
    obtain ⟨tailEntries, ht⟩ := ih fun l hlmem => hl l (List.mem_cons_of_mem _ hlmem)
    refine ⟨(if n ∉ visited ∧ is_valid_url ae n base = true then [(n, d + 1)] else [])
      ++ tailEntries, ?_⟩
    simp [enqueueLinks, hj, hn, ht, pure, Except.pure]

/-- C3 counterexample: no `ConfigError` class exists anywhere in the code,
    and the exception that does escape the Controller is the `ValueError`
    (`Invalid IPv6 URL`) raised by `normalize_url`/`urlparse` on a malformed
    *seed*: `start_url = self.normalize_url(start_url)` (crawler.py line 171)
    sits outside every try/except, so `crawl('http://[bad')` propagates the
    exception to the consumer of the record sequence. -/
theorem c3_counterexample :
    crawl ⟨2, 10, false⟩ (fun _ => none) [] "http://[bad".toList 10 =
      .error "Invalid IPv6 URL".toList := rfl

/-- C3 amended: (a) a link whose parse fails inside `is_valid_url` is treated
    as invalid there (the try/except returns `False`, it never raises);
    (b) a malformed discovered href is recovered locally by the *extractor*:
    `_extract_links` resolves every kept href through `urljoin` inside a
    try/except, so only successful join results ever reach the crawl loop;
    (c) when every fetched page's URL parses with a non-empty authority (as
    `requests` guarantees for any URL it fetches) and its link list is an
    `_extract_links` result at that URL (as `fetch_page` constructs it), the
    unprotected `urljoin`/`normalize_url` in the enqueue loop can never
    raise, so no per-page or per-link error aborts a run — any number of
    failed fetches included.  What the original claim gets wrong is the seed
    (see the counterexample), and `ConfigError` does not exist in the code. -/
theorem c3_error_containment :
    (∀ (ae : Bool) (url base e : Str), urlparseE [] url = .error e →
        is_valid_url ae url base = false) ∧
    (∀ (base_url l : Str) (hrefs : List Str),
        l ∈ extract_links base_url hrefs → ∃ h, urljoin base_url h = .ok l) ∧
    (∀ (cfg : CrawlConfig) (fetch : Str → Option PageData) (visited₀ : List Str)
        (start_url : Str) (fuel : Nat) (st : CrawlState) (err : Option Str),
        (∀ u pd, fetch u = some pd →
            (∃ b, urlparseE [] u = .ok b ∧ b.netloc ≠ []) ∧
            ∃ hrefs, pd.links = extract_links u hrefs) →
        crawl cfg fetch visited₀ start_url fuel = .ok (st, err) → err = none) := by
  refine ⟨?_, ?_, ?_⟩
  · intro ae url base e he
    simp [is_valid_url, he]
  · exact fun base_url l hrefs hl => extract_links_mem_join base_url hrefs l hl
  · intro cfg fetch visited₀ start_url fuel st err hfetch h
    have hl : ∀ u pd, fetch u = some pd → ∀ l ∈ pd.links,
        ∃ n a, urljoin u l = .ok a ∧ normalize_url a = .ok n := by
      intro u pd hu l hlmem
      obtain ⟨⟨b, hb, hbn⟩, hrefs, hlinks⟩ := hfetch u pd hu
      rw [hlinks] at hlmem
      exact extract_links_safe u b hb hbn hrefs l hlmem
    rcases hs : normalize_url start_url with e | s
    · simp [crawl, hs] at h
    rcases hp : urlparseE [] s with e | p
    · simp [crawl, hs, hp] at h
    rw [crawl_eq cfg fetch visited₀ start_url fuel s p hs hp] at h
    have key : ∀ (n : Nat) (st' : CrawlState),
        (crawlLoop cfg fetch p.netloc n st').2 = none := by
      intro n
      induction n with
      | zero => intro st'; simp [crawlLoop]
      | succ m ih =>
        intro st'
        rcases hq : st'.queue with _ | ⟨⟨u, d⟩, rest⟩
        · simp [crawlLoop, hq]
        by_cases hpg : st'.pages_crawled < cfg.max_pages
        · by_cases hv : u ∈ st'.visited
          · simpa [crawlLoop, hq, hpg, hv] using ih _
          by_cases hd : cfg.max_depth < d
          · simpa [crawlLoop, hq, hpg, hv, hd] using ih _
          rcases hf : fetch u with _ | page
          · simpa [crawlLoop, hq, hpg, hv, hd, hf] using ih _
          by_cases hdd : d < cfg.max_depth
          · obtain ⟨entries, he⟩ := enqueueLinks_ok cfg.allow_external p.netloc
              (st'.visited ++ [u]) u d page.links (hl u page hf)
            simpa [crawlLoop, hq, hpg, hv, hd, hf, hdd, he] using ih _
          · simpa [crawlLoop, hq, hpg, hv, hd, hf, hdd] using ih _
        · simp [crawlLoop, hq, hpg]
    have herr : err = (crawlLoop cfg fetch p.netloc fuel
        { queue := [(s, 0)], visited := visited₀, pages_crawled := 0,
          records := [], fetched := [] }).2 := by
      cases h' : crawlLoop cfg fetch p.netloc fuel
          { queue := [(s, 0)], visited := visited₀, pages_crawled := 0,
            records := [], fetched := [] }
      rw [h'] at h
      simp_all
    rw [herr, key]

/-- Witness for the amended C3: a parse-failing URL is rejected by
    `is_valid_url` without raising; the good link of the C3 fetch survives
    the extractor as a join result while the malformed href is dropped; and
    the concrete run over that fetch — one page fetched, its malformed href
    recovered by the extractor, its good link enqueued and fetched — ends
    with no escaping error. -/
theorem c3_witness :
    is_valid_url false "http://[b".toList "a.com".toList = false ∧
    (∃ h, urljoin "http://a.com".toList h = .ok "http://a.com/b".toList) ∧
    (none : Option Str) = none :=
  ⟨c3_error_containment.1 false "http://[b".toList "a.com".toList
      "Invalid IPv6 URL".toList rfl,
   c3_error_containment.2.1 "http://a.com".toList "http://a.com/b".toList
      ["/b".toList, "http://[bad".toList] (by decide),
   c3_error_containment.2.2 ⟨2, 10, false⟩ c3fetch [] "http://a.com".toList 10
      { queue := [],
        visited := ["http://a.com".toList, "http://a.com/b".toList],
        pages_crawled := 1,
        records := [⟨"http://a.com".toList, "T".toList, "X".toList⟩],
        fetched := [("http://a.com".toList, 0), ("http://a.com/b".toList, 1)] }
      none
      (fun u pd h => by
        by_cases hu : u = "http://a.com".toList
        · subst hu
          rw [show c3fetch "http://a.com".toList
              = some ⟨"T".toList, "X".toList,
                  extract_links "http://a.com".toList
                    ["/b".toList, "http://[bad".toList]⟩ from rfl] at h
          obtain rfl := Option.some.inj h
          exact ⟨⟨⟨"http".toList, "a.com".toList, [], [], [], []⟩, rfl, by decide⟩,
            ["/b".toList, "http://[bad".toList], rfl⟩
        · simp only [c3fetch, if_neg hu] at h
          exact Option.noConfusion h)
      rfl⟩

end Crawler
